import Mathlib

/-!
Verification of the Blyaanus agent-orchestration core.

The development shallowly embeds the complexity scorer, the mode dispatcher,
the multi-agent pipeline (src/anus/core/agent/hybrid_agent.py) and the task
orchestrator (src/anus/core/orchestrator.py).  Python floats are modelled as
rationals, Python strings as Lean strings or character lists; character
classes (whitespace, alphanumeric, lowercasing) are modelled at the ASCII
level, which is exact on every concrete input appearing below.
-/

/-- Python whitespace class used by `str.split`, `str.isspace` and the regex
class in `\s` (ASCII part). -/
def wsCharB (c : Char) : Bool :=
  c = ' ' || c = '\t' || c = '\n' || c = '\r' || c = Char.ofNat 11 || c = Char.ofNat 12

/-- Python `str.isalnum` (ASCII part). -/
def isAlnumB (c : Char) : Bool := c.isAlpha || c.isDigit

/-- Python `str.lower`, character-wise (ASCII part). -/
def lowerL (cs : List Char) : List Char := cs.map Char.toLower

/-- One piece of a regex alternative: a literal, or the greedy class `\s+`.
The ten patterns of `HybridAgent._assess_complexity` are alternations of
such sequences. -/
inductive Piece where
  | lit (s : List Char)
  | ws
deriving DecidableEq

/-- A regex alternative: a sequence of pieces matched left to right. -/
abbrev Alt := List Piece

/-- A regex pattern: an ordered alternation of alternatives, as tried by
Python `re` at a given position. -/
abbrev Pat := List Alt

/-- Result of matching one alternative at the head of a string: a match of
the given length, a definite mismatch, or running out of input while the
consumed text was still consistent with the alternative. -/
inductive MRes where
  | found (l : ℕ)
  | mismatch
  | oob
deriving DecidableEq

/-- Length of the maximal leading whitespace run (greedy `\s+` fodder). -/
def leadWs (cs : List Char) : ℕ := (cs.takeWhile wsCharB).length

/-- Match one alternative at the head of `cs`.  Greedy `\s+` followed by a
literal needs no backtracking because every following literal starts with a
non-whitespace character, so this is faithful to Python `re` for the ten
patterns of the scorer. -/
def matchAlt : Alt → List Char → MRes
  | [], _ => .found 0
  | .lit s :: ps, cs =>
    if s.isPrefixOf cs then
      match matchAlt ps (cs.drop s.length) with
      | .found l => .found (s.length + l)
      | r => r
    else if cs.isPrefixOf s then .oob else .mismatch
  | .ws :: ps, cs =>
    if leadWs cs = 0 then (if cs.isEmpty then .oob else .mismatch)
    else
      match matchAlt ps (cs.drop (leadWs cs)) with
      | .found l => .found (leadWs cs + l)
      | r => r

/-- First alternative (in pattern order) matching at the head of `cs`,
as Python `re` alternation does. -/
def firstMatch : Pat → List Char → Option ℕ
  | [], _ => none
  | a :: ps, cs =>
    match matchAlt a cs with
    | .found l => some l
    | _ => firstMatch ps cs

/-- Fueled scan counting non-overlapping leftmost matches, the semantics of
`re.findall`: on a match of length `l` the scan resumes after it, otherwise
it advances one character. -/
def countAux (P : Pat) : ℕ → List Char → ℕ
  | 0, _ => 0
  | _ + 1, [] => 0
  | fuel + 1, c :: cs =>
    match firstMatch P (c :: cs) with
    | some l => 1 + countAux P fuel (cs.drop (l - 1))
    | none => countAux P fuel cs

/-- Number of `re.findall` matches of pattern `P` in `cs`. -/
def countM (P : Pat) (cs : List Char) : ℕ := countAux P cs.length cs

/-- Literal piece from a string literal. -/
def L (s : String) : Piece := .lit s.data

/-- Regex `(calculate|compute|evaluate)` of the operation table. -/
def patCalc : Pat := [[L "calculate"], [L "compute"], [L "evaluate"]]

/-- Regex `(search|find|look up)` of the operation table. -/
def patSearch : Pat := [[L "search"], [L "find"], [L "look up"]]

/-- Regex `(count|process|analyze|transform)\s+text` of the operation table. -/
def patText : Pat :=
  [[L "count", .ws, L "text"], [L "process", .ws, L "text"],
   [L "analyze", .ws, L "text"], [L "transform", .ws, L "text"]]

/-- Regex `run\s+code|execute` of the operation table. -/
def patRun : Pat := [[L "run", .ws, L "code"], [L "execute"]]

/-- Regex `compare|contrast|evaluate` of the operation table. -/
def patCompare : Pat := [[L "compare"], [L "contrast"], [L "evaluate"]]

/-- Regex `optimize|improve|enhance` of the operation table. -/
def patOptimize : Pat := [[L "optimize"], [L "improve"], [L "enhance"]]

/-- Regex `and|then|after|before` of the operation table. -/
def patSeq : Pat := [[L "and"], [L "then"], [L "after"], [L "before"]]

/-- Regex `if|when|unless|otherwise` of the operation table. -/
def patCond : Pat := [[L "if"], [L "when"], [L "unless"], [L "otherwise"]]

/-- Regex `all|every|each` of the operation table. -/
def patQuant : Pat := [[L "all"], [L "every"], [L "each"]]

/-- Regex `most|best|optimal` of the operation table. -/
def patSuper : Pat := [[L "most"], [L "best"], [L "optimal"]]

/-- Word count of Python `task.split()`: number of maximal runs of
non-whitespace characters. -/
def wordsAux : Bool → List Char → ℕ
  | _, [] => 0
  | inWord, c :: cs =>
    if wsCharB c then wordsAux false cs
    else if inWord then wordsAux true cs else 1 + wordsAux true cs

/-- Number of whitespace-delimited words in `cs`. -/
def wordCount (cs : List Char) : ℕ := wordsAux false cs

/-- Count of characters that are neither alphanumeric nor whitespace
(`special_chars` in `_assess_complexity`). -/
def specialCount (cs : List Char) : ℕ :=
  (cs.filter (fun c => !(isAlnumB c) && !(wsCharB c))).length

/-- Python substring test `needle in hay`. -/
def substrB : List Char → List Char → Bool
  | n, [] => n.isEmpty
  | n, c :: t => n.isPrefixOf (c :: t) || substrB n t

/-- Does the lowered task contain any of the keywords (Python
`any(kw in task_lower for kw in keywords)`). -/
def anyKw (kws : List String) (low : List Char) : Bool :=
  kws.any (fun k => substrB k.data low)

/-- Keyword set of the `calculator` tool category. -/
def calcKws : List String := ["calculate", "compute", "evaluate", "math"]

/-- Keyword set of the `search` tool category. -/
def searchKws : List String := ["search", "find", "look up", "query"]

/-- Keyword set of the `text` tool category. -/
def textKws : List String := ["text", "string", "characters", "words"]

/-- Keyword set of the `code` tool category. -/
def codeKws : List String := ["code", "execute", "run", "python"]

/-- Number of tool categories triggered by the lowered task
(`tools_needed` in `_assess_complexity`). -/
def toolsNeeded (low : List Char) : ℕ :=
  (if anyKw calcKws low then 1 else 0) + (if anyKw searchKws low then 1 else 0)
    + (if anyKw textKws low then 1 else 0) + (if anyKw codeKws low then 1 else 0)

/-- Weighted sum over the operation-pattern table of `_assess_complexity`
(weight times `len(re.findall(pattern, task.lower()))`).  Every weight in the
table is a multiple of 0.1, so the whole score is computed exactly in tenths
(weight 1.0 becomes 10, 1.5 becomes 15, and so on); `opsContrib` below
recovers the rational value. -/
def opsContrib10 (low : List Char) : ℕ :=
  10 * countM patCalc low + 10 * countM patSearch low
    + 10 * countM patText low + 15 * countM patRun low
    + 20 * countM patCompare low + 25 * countM patOptimize low
    + 10 * countM patSeq low + 15 * countM patCond low
    + 10 * countM patQuant low + 15 * countM patSuper low

/-- Unclamped complexity sum of `_assess_complexity`, in tenths: the pattern
table plus `len(words) * 0.1` plus `special_chars * 0.2` plus
`tools_needed * 1.5`. -/
def rawScore10 (task : List Char) : ℕ :=
  opsContrib10 (lowerL task) + wordCount task + 2 * specialCount task
    + 15 * toolsNeeded (lowerL task)

/-- `HybridAgent._assess_complexity` in tenths: `min(10.0, complexity)`
becomes `min 100`. -/
def score10 (task : List Char) : ℕ := min 100 (rawScore10 task)

/-- Weighted pattern-table contribution as a rational. -/
def opsContrib (low : List Char) : ℚ := (opsContrib10 low : ℚ) / 10

/-- Number of `re.findall` matches of the search-verb pattern, as a rational
contribution (weight 1.0). -/
def searchContrib (low : List Char) : ℚ := (countM patSearch low : ℚ)

/-- Word-length contribution `len(words) * 0.1` of `_assess_complexity`. -/
def wordContrib (task : List Char) : ℚ := (wordCount task : ℚ) * (1/10)

/-- Punctuation-density contribution `special_chars * 0.2`. -/
def specialContrib (task : List Char) : ℚ := (specialCount task : ℚ) * (1/5)

/-- Tool-diversity contribution `tools_needed * 1.5`. -/
def toolContrib (low : List Char) : ℚ := (toolsNeeded low : ℚ) * (3/2)

/-- `HybridAgent._assess_complexity`: the clamped complexity score as the
rational number the float code approximates. -/
def scoreL (task : List Char) : ℚ := (score10 task : ℚ) / 10

/-- Complexity score of a task given as a string. -/
def scoreStr (task : String) : ℚ := scoreL task.data

deriving instance DecidableEq for Except

/-- Configuration dictionary passed to `add_specialized_agent`: the code
reads the keys `name` and `tools`. -/
structure AgentConfig where
  name : Option String
  tools : List String
deriving DecidableEq

/-- Modelled from the spec: a constructed `ToolAgent` instance
(`anus.core.agent.tool_agent.ToolAgent` is not under src/); per spec section
2 it is a black-box capability identified here by its constructor
arguments. -/
structure SpecAgent where
  name : String
  cfg : AgentConfig
deriving DecidableEq

/-- Action input dictionary produced by `_decide_action`; the hybrid agent
reads only its `expression` entry (values are modelled by their string
rendering). -/
structure ActionInput where
  expression : Option String
deriving DecidableEq

/-- Action result dictionary produced by `_execute_action`; the hybrid agent
reads its `status` and `result` entries (values are modelled by their string
rendering). -/
structure ActionResult where
  status : Option String
  result : Option String
deriving DecidableEq

/-- Keyword arguments of `HybridAgent.execute`: the multi-agent path reads
`kwargs.get("tools", [])` and the orchestrator passes `mode=mode`. -/
structure ExecOpts where
  tools : Option (List String)
  mode : Option String
deriving DecidableEq

/-- Modelled from the spec: the black-box collaborators of the hybrid agent
that are not under src/ — the `ToolAgent` constructor and its `execute`
method (spec sections 2 and 6: total, returning a result envelope), the
Python `str` rendering of a result, the `answer` entry lookup on a result,
and `ToolAgent._decide_action` / `ToolAgent._execute_action` used by the
fast path (spec section 4.4: total resolution into an action name plus
input, and an action result envelope).  Results have type `R`. -/
structure World (R : Type) where
  construct : String → AgentConfig → Except String SpecAgent
  agentExec : SpecAgent → String → R
  singleExec : String → ExecOpts → R
  reprR : R → String
  getAnswer : R → Option String
  decideAction : String → String × ActionInput
  executeAction : String → ActionInput → ActionResult

/-- The `specialized_agents` dictionary: keys in insertion order, `none`
standing for Python `None`. -/
def AgentState : Type := List (String × Option SpecAgent)

instance : DecidableEq AgentState := by
  unfold AgentState
  infer_instance

/-- Python `dict.get(role)` on the registry. -/
def dictGet (st : AgentState) (k : String) : Option SpecAgent :=
  match st.lookup k with
  | some v => v
  | none => none

/-- Python `dict[role] = value`: replace the first binding or append a new
one. -/
def dictSet (st : AgentState) (k : String) (v : Option SpecAgent) : AgentState :=
  match st with
  | [] => [(k, v)]
  | (k2, v2) :: rest =>
    if k2 = k then (k2, v) :: rest else (k2, v2) :: dictSet rest k v

/-- The initial `specialized_agents` dictionary of `HybridAgent.__init__`:
all four roles bound to `None`. -/
def initAgents : AgentState :=
  [("researcher", none), ("planner", none), ("executor", none), ("critic", none)]

/-- The fixed role order `standard_roles` of `_execute_multi_agent`. -/
def stdRoles : List String := ["researcher", "planner", "executor", "critic"]

/-- `HybridAgent.add_specialized_agent(role, config)`.  The code computes
`agent_name = config.get("name", f"<role>-agent")` and then calls
`ToolAgent(name=agent_name, **config)`; when `config` itself contains a
`name` key, that call passes the keyword `name` twice and Python raises a
`TypeError` before any agent is constructed, which the method does not
catch. -/
def addSpecializedAgent (w : World R) (st : AgentState) (role : String)
    (config : AgentConfig) : Except String AgentState :=
  let agentName := config.name.getD (role ++ "-agent")
  if config.name.isSome then
    .error "TypeError: got multiple values for keyword argument name"
  else
    match w.construct agentName config with
    | .ok a => .ok (dictSet st role (some a))
    | .error e => .error e

/-- The agent-creation loop of `_execute_multi_agent`: for each standard
role still unbound, register a default agent with configuration
`{"name": f"<role>-agent", "tools": kwargs.get("tools", [])}`.  Exceptions
from `add_specialized_agent` propagate. -/
def createMissing (w : World R) (kw : ExecOpts) : List String → AgentState →
    Except String AgentState
  | [], st => .ok st
  | role :: rest, st =>
    if (dictGet st role).isNone then
      match addSpecializedAgent w st role
          { name := some (role ++ "-agent"), tools := kw.tools.getD [] } with
      | .ok st2 => createMissing w kw rest st2
      | .error e => .error e
    else createMissing w kw rest st

/-- Python rendering of `results.get(role)` inside an f-string: `None` when
the stage never ran, otherwise `str` of the stage result. -/
def optRepr (w : World R) : Option R → String
  | none => "None"
  | some r => w.reprR r

/-- Prompt fed to the researcher stage. -/
def researcherPrompt (task : String) : String :=
  "Analyze and gather information for: " ++ task

/-- Prompt fed to the planner stage; embeds the rendering of the researcher
stage result. -/
def plannerPrompt (w : World R) (task : String) (res : Option R) : String :=
  "Plan execution strategy for: " ++ task ++ "\nBased on research: " ++ optRepr w res

/-- Prompt fed to the executor stage; embeds the rendering of the planner
stage result. -/
def executorPrompt (w : World R) (task : String) (res : Option R) : String :=
  "Execute plan for: " ++ task ++ "\nFollowing strategy: " ++ optRepr w res

/-- Prompt fed to the critic stage; embeds the rendering of the executor
stage result. -/
def criticPrompt (w : World R) (task : String) (res : Option R) : String :=
  "Evaluate results for: " ++ task ++ "\nAnalyzing output: " ++ optRepr w res

/-- The hybrid agent result dictionary: the verbatim base-agent result on
the single path, or the `direct` / `multi` dictionaries literally built in
`_execute_multi_agent`. -/
inductive HAOutput (R : Type) where
  | singleOut (r : R)
  | directOut (task answer : String) (directResult : ActionResult)
  | multiOut (task answer : String) (researcher planner executor critic : Option R)
deriving DecidableEq

/-- Execution outcome: the returned dictionary, the final
`specialized_agents` registry, and the instrumented sequence of
(role, prompt) black-box agent invocations in call order. -/
structure ExecOutcome (R : Type) where
  output : HAOutput R
  state : AgentState
  calls : List (String × String)
deriving DecidableEq

/-- The full (non-fast-path) body of `_execute_multi_agent`: create missing
role agents, then run researcher, planner, executor and critic in that
order, threading each rendered result into the next prompt, and aggregate.
The answer is the executor answer entry if present, else the rendering of
the executor result, else `No answer` when the executor stage never ran. -/
def runPipeline (w : World R) (st : AgentState) (task : String) (kw : ExecOpts) :
    Except String (ExecOutcome R) :=
  match createMissing w kw stdRoles st with
  | .error e => .error e
  | .ok st2 =>
    let rAgent := dictGet st2 "researcher"
    let rRes : Option R := rAgent.map (fun a => w.agentExec a (researcherPrompt task))
    let pAgent := dictGet st2 "planner"
    let pRes : Option R := pAgent.map (fun a => w.agentExec a (plannerPrompt w task rRes))
    let eAgent := dictGet st2 "executor"
    let eRes : Option R := eAgent.map (fun a => w.agentExec a (executorPrompt w task pRes))
    let cAgent := dictGet st2 "critic"
    let cRes : Option R := cAgent.map (fun a => w.agentExec a (criticPrompt w task eRes))
    let answer : String :=
      match eRes with
      | none => "No answer"
      | some r => (w.getAnswer r).getD (w.reprR r)
    .ok
      { output := .multiOut task answer rRes pRes eRes cRes
      , state := st2
      , calls :=
          (if rAgent.isSome then [("researcher", researcherPrompt task)] else [])
            ++ (if pAgent.isSome then [("planner", plannerPrompt w task rRes)] else [])
            ++ (if eAgent.isSome then [("executor", executorPrompt w task pRes)] else [])
            ++ (if cAgent.isSome then [("critic", criticPrompt w task eRes)] else []) }

/-- The `task.lower().startswith("calculate")` guard of the fast path. -/
def startsCalculate (task : String) : Bool :=
  "calculate".data.isPrefixOf (lowerL task.data)

/-- Does the calculator fast path of `_execute_multi_agent` fire: action
resolution yields the calculator action carrying an `expression` entry, and
executing it reports `success` with a `result` entry. -/
def fastFires (w : World R) (task : String) : Bool :=
  let (actionName, actionInput) := w.decideAction task
  actionName == "calculator" && actionInput.expression.isSome
    && (let res := w.executeAction actionName actionInput
        res.status == some "success" && res.result.isSome)

/-- The synthesized fast-path answer
`f"The result of {action_input['expression']} is {result['result']}"`. -/
def fastAnswer (w : World R) (task : String) : String :=
  let (actionName, actionInput) := w.decideAction task
  let res := w.executeAction actionName actionInput
  "The result of " ++ actionInput.expression.getD "" ++ " is " ++ res.result.getD ""

/-- `HybridAgent._execute_multi_agent`: try the calculator fast path for
tasks starting with `calculate`, otherwise (or on any fast-path failure)
run the full four-stage pipeline. -/
def executeMultiAgent (w : World R) (st : AgentState) (task : String) (kw : ExecOpts) :
    Except String (ExecOutcome R) :=
  if startsCalculate task then
    match w.decideAction task with
    | (actionName, actionInput) =>
      if actionName == "calculator" && actionInput.expression.isSome then
        let res := w.executeAction actionName actionInput
        if res.status == some "success" && res.result.isSome then
          .ok
            { output := .directOut task
                ("The result of " ++ actionInput.expression.getD "" ++ " is "
                  ++ res.result.getD "") res
            , state := st
            , calls := [] }
        else runPipeline w st task kw
      else runPipeline w st task kw
  else runPipeline w st task kw

/-- `HybridAgent.execute`: score the task and dispatch.  `complexity < 3.0`
is `score10 < 30` in tenths. -/
def hybridExecute (w : World R) (st : AgentState) (task : String) (kw : ExecOpts) :
    Except String (ExecOutcome R) :=
  if score10 task.data < 30 then
    .ok { output := .singleOut (w.singleExec task kw), state := st, calls := [] }
  else
    executeMultiAgent w st task kw

/-- Mode tag of a hybrid result dictionary.  The `direct` and `multi` tags
are literal in `_execute_multi_agent`; the `single` tag of the verbatim
base-agent result is modelled from the spec (section 4.2), `ToolAgent`
being outside src/. -/
def modeOf : HAOutput R → String
  | .singleOut _ => "single"
  | .directOut _ _ _ => "direct"
  | .multiOut _ _ _ _ _ _ => "multi"

/-- Branch classification of a dispatch outcome: the mode tag, or `error`
when the call raised. -/
def branchOf : Except String (ExecOutcome R) → String
  | .error _ => "error"
  | .ok o => modeOf o.output

/-- One record of `task_history` as appended by
`AgentOrchestrator.execute_task`. -/
structure HistoryEntry (R : Type) where
  task : String
  mode : String
  startTime : ℚ
  executionTime : ℚ
  status : String
  result : HAOutput R
deriving DecidableEq

/-- Orchestrator state: the primary hybrid agent registry, the append-only
`task_history`, `last_result`, and the configured default mode
(`config.get("agent", {}).get("mode", "single")`). -/
structure OrchState (R : Type) where
  agentState : AgentState
  taskHistory : List (HistoryEntry R)
  lastResult : Option (HAOutput R)
  configMode : String
deriving DecidableEq

/-- `AgentOrchestrator._async_execute`: the source wraps the agent call as
`loop.run_in_executor(None, self.primary_agent.execute, task, mode=mode)`.
`run_in_executor(executor, func, *args)` accepts only positional arguments
after `func`, so the keyword `mode=mode` raises
`TypeError: run_in_executor() got an unexpected keyword argument mode`
on every invocation, before `HybridAgent.execute` ever runs and
independently of the agent state, the task, or the resolved mode. -/
def asyncExecute (w : World R) (st : AgentState) (task : String) (m : String) :
    Except String (ExecOutcome R) :=
  .error "TypeError: run_in_executor got an unexpected keyword argument mode"

/-- `AgentOrchestrator.execute_task`: resolve the mode argument, await
`_async_execute(task, mode)`, and on normal return append a history entry
with `execution_time = end - start` and record `last_result`.  When the
awaited call raises, the exception propagates and the orchestrator state is
unchanged — the `await` precedes the history append.  Since `_async_execute`
raises a `TypeError` on every call (see `asyncExecute`), the normal-return
branch below is unreachable in the program.  The wall-clock reads
`time.time()` are the parameters `startTime` and `endTime`. -/
def executeTask (w : World R) (os : OrchState R) (task : String)
    (mode : Option String) (startTime endTime : ℚ) :
    Except String (HAOutput R) × OrchState R :=
  let m := mode.getD os.configMode
  match asyncExecute w os.agentState task m with
  | .ok outc =>
    ( .ok outc.output
    , { agentState := outc.state
      , taskHistory := os.taskHistory
          ++ [{ task := task, mode := m, startTime := startTime
              , executionTime := endTime - startTime, status := "completed"
              , result := outc.output }]
      , lastResult := some outc.output
      , configMode := os.configMode } )
  | .error e => (.error e, os)

/-- One call to `execute_task`: the task, the optional mode argument, and
the two wall-clock reads. -/
structure CallSpec where
  task : String
  mode : Option String
  startTime : ℚ
  endTime : ℚ

/-- Run a sequence of `execute_task` calls, keeping the orchestrator state
across calls. -/
def runTasks (w : World R) : OrchState R → List CallSpec → OrchState R
  | os, [] => os
  | os, c :: rest => runTasks w (executeTask w os c.task c.mode c.startTime c.endTime).2 rest

/-- A concrete world over string results, used to evaluate the embedding on
closed inputs. -/
def demoWorld : World String :=
  { construct := fun n c => .ok { name := n, cfg := c }
  , agentExec := fun a p => "agent " ++ a.name ++ " output for " ++ p
  , singleExec := fun t _ => "single result for " ++ t
  , reprR := fun r => r
  , getAnswer := fun r => some ("answer of " ++ r)
  , decideAction := fun _ => ("calculator", { expression := some "2 + 2" })
  , executeAction := fun _ _ => { status := some "success", result := some "4" } }

/-- A registry with all four standard roles already populated (for example
after four successful `add_specialized_agent` calls with name-free
configurations). -/
def popState : AgentState :=
  [ ("researcher", some { name := "researcher-agent", cfg := { name := none, tools := [] } })
  , ("planner", some { name := "planner-agent", cfg := { name := none, tools := [] } })
  , ("executor", some { name := "executor-agent", cfg := { name := none, tools := [] } })
  , ("critic", some { name := "critic-agent", cfg := { name := none, tools := [] } }) ]

/-- A fresh orchestrator state over `demoWorld`. -/
def initOrch : OrchState String :=
  { agentState := initAgents, taskHistory := [], lastResult := none, configMode := "single" }

/-- Default empty keyword arguments of `HybridAgent.execute`. -/
def opts0 : ExecOpts := { tools := none, mode := none }

/-- A world whose `ToolAgent` constructor always fails (the bad-configuration
scenario of spec section 7). -/
def failWorld : World String :=
  { demoWorld with construct := fun _ _ => .error "bad configuration" }

/-- Insertion of a phrase into a task at position `i` (claim C6 reads
`inserting an additional occurrence of that phrase into the task`). -/
def insertAt (t : List Char) (i : ℕ) (p : List Char) : List Char :=
  t.take i ++ p ++ t.drop i

/-- The weighted trigger phrases of the scorer's operation table: a minimal
match of each alternative of its ten patterns. -/
def triggerPhrases : List String :=
  ["calculate", "compute", "evaluate", "search", "find", "look up",
   "count text", "process text", "analyze text", "transform text",
   "run code", "execute", "compare", "contrast", "optimize", "improve",
   "enhance", "and", "then", "after", "before", "if", "when", "unless",
   "otherwise", "all", "every", "each", "most", "best", "optimal"]

/-- Well-formedness of the tail of an alternative: every literal is
nonempty and `\s+` is always followed by a literal. -/
def goodTail : Alt → Bool
  | [] => true
  | .lit s :: r => !s.isEmpty && goodTail r
  | .ws :: .lit s :: r => !s.isEmpty && goodTail (.lit s :: r)
  | .ws :: _ => false

/-- Does the alternative start with a literal piece? -/
def headIsLit : Alt → Bool
  | .lit _ :: _ => true
  | _ => false

/-- Well-formed alternative: starts with a literal and has a good tail. -/
def goodAlt (a : Alt) : Bool := headIsLit a && goodTail a

/-- Well-formed pattern: every alternative is well formed. -/
def goodPat (P : Pat) : Bool := P.all goodAlt

/-- Head literal of an alternative. -/
def headLit : Alt → List Char
  | .lit s :: _ => s
  | _ => []

/-- Head literals of two alternatives are not prefixes of one another. -/
def pairOkB (a b : Alt) : Bool :=
  !(headLit a).isPrefixOf (headLit b) && !(headLit b).isPrefixOf (headLit a)

/-- No head literal of the pattern is a prefix of another alternative's
head literal (so at a given position at most one alternative can be
consistent with the text). -/
def noPfxB : Pat → Bool
  | [] => true
  | a :: rest => rest.all (fun b => pairOkB a b) && noPfxB rest

/-- Conditions on an appended phrase under which appending cannot complete
a partial match that began inside the original task: the phrase is nonempty,
starts with a non-whitespace character, and does not begin with `up`,
`text` or `code` (the only literal continuations the ten patterns can still
expect across a space). -/
def phraseOk (p : List Char) : Bool :=
  (match p with
    | [] => false
    | c :: _ => !wsCharB c)
    && !("up".data.isPrefixOf p) && !("text".data.isPrefixOf p)
    && !("code".data.isPrefixOf p)

/-- The tenths-based raw score is exactly ten times the sum of the four
rational contributions of `_assess_complexity`. -/
theorem rawScore10_eq (task : List Char) :
    (rawScore10 task : ℚ) =
      (opsContrib (lowerL task) + wordContrib task + specialContrib task
        + toolContrib (lowerL task)) * 10 := by
  unfold rawScore10 opsContrib wordContrib specialContrib toolContrib
  push_cast
  ring

/-- The clamped score is the minimum of 10 and the sum of the four
contributions. -/
theorem scoreL_eq (task : List Char) :
    scoreL task = min 10 ((opsContrib (lowerL task) + wordContrib task
      + specialContrib task + toolContrib (lowerL task))) := by
  have hr := rawScore10_eq task
  unfold scoreL score10
  rcases le_total 100 (rawScore10 task) with h | h
  · have h10 : (100 : ℚ) ≤ (rawScore10 task : ℚ) := by exact_mod_cast h
    rw [min_eq_left h, min_eq_left (by linarith)]
    norm_num
  · have h10 : (rawScore10 task : ℚ) ≤ 100 := by exact_mod_cast h
    rw [min_eq_right h, min_eq_right (by linarith)]
    rw [hr]; ring

example : score10 "".data = 0 := by decide
example : score10 "search for information".data = 28 := by decide
example : score10 "look up".data = 27 := by decide
example : score10 "look andup".data = 12 := by decide
example : score10 "optimize everything".data = 37 := by decide
example : score10 "compare and contrast all results".data = 65 := by decide
example : score10 "improve all interfaces".data = 38 := by decide
example : score10 "hi".data = 1 := by decide
example : score10 "calculate 2 + 2".data = 31 := by decide

/-- The dispatch condition in tenths: the rational score is below the 3.0
threshold exactly when the tenths score is below 30. -/
theorem scoreStr_lt_three_iff (task : String) :
    scoreStr task < 3 ↔ score10 task.data < 30 := by
  unfold scoreStr scoreL
  rw [div_lt_iff₀ (by norm_num : (0:ℚ) < 10)]
  constructor
  · intro h
    exact_mod_cast h
  · intro h
    exact_mod_cast h

/-- Comparing two rational scores is comparing the tenths scores. -/
theorem scoreL_lt_iff (a b : List Char) :
    scoreL a < scoreL b ↔ score10 a < score10 b := by
  unfold scoreL
  rw [div_lt_div_iff_of_pos_right (by norm_num : (0:ℚ) < 10)]
  constructor
  · intro h
    exact_mod_cast h
  · intro h
    exact_mod_cast h

/-- Monotone tenths scores give monotone rational scores. -/
theorem scoreL_le_of_le {a b : List Char} (h : score10 a ≤ score10 b) :
    scoreL a ≤ scoreL b := by
  unfold scoreL
  have hc : (score10 a : ℚ) ≤ (score10 b : ℚ) := by exact_mod_cast h
  gcongr

/-- Tasks scoring below the threshold take the single branch of
`HybridAgent.execute`. -/
theorem hybridExecute_single_of_lt (w : World R) (st : AgentState) (task : String)
    (kw : ExecOpts) (h : score10 task.data < 30) :
    hybridExecute w st task kw =
      .ok { output := .singleOut (w.singleExec task kw), state := st, calls := [] } := by
  unfold hybridExecute
  rw [if_pos h]

/-- C5: for every task string the complexity score lies in [0.0, 10.0], and
the empty string scores exactly 0.0. -/
theorem claim_C5_score_bounds :
    (∀ task : String, 0 ≤ scoreStr task ∧ scoreStr task ≤ 10) ∧ scoreStr "" = 0 := by
  constructor
  · intro task
    unfold scoreStr scoreL
    refine ⟨by positivity, ?_⟩
    have h : score10 task.data ≤ 100 := min_le_left _ _
    have hc : (score10 task.data : ℚ) ≤ 100 := by exact_mod_cast h
    linarith
  · unfold scoreStr scoreL
    have h : score10 "".data = 0 := by decide
    rw [h]
    norm_num

/-- C3: a task scoring below 3.0 is dispatched to the single
capability-backed path: the base-agent result is returned verbatim (with the
single mode tag, modelled from the spec since `ToolAgent.execute` is outside
src/) and the specialized-agent registry is left untouched — the registry
state comes back unchanged and no role agent is invoked or constructed. -/
theorem claim_C3_single_path (R : Type) (w : World R) (st : AgentState) (task : String)
    (kw : ExecOpts) (h : scoreStr task < 3) :
    hybridExecute w st task kw =
        .ok { output := .singleOut (w.singleExec task kw), state := st, calls := [] }
      ∧ modeOf (HAOutput.singleOut (w.singleExec task kw)) = "single" :=
  ⟨hybridExecute_single_of_lt w st task kw ((scoreStr_lt_three_iff task).mp h), rfl⟩

/-- Witness for C3 at the task `hi`, whose score 0.1 is below 3.0. -/
theorem claim_C3_witness :
    scoreStr "hi" < 3
      ∧ hybridExecute demoWorld initAgents "hi" { tools := none, mode := none } =
          .ok { output := .singleOut (demoWorld.singleExec "hi" { tools := none, mode := none })
              , state := initAgents, calls := [] } :=
  ⟨(scoreStr_lt_three_iff "hi").mpr (by decide),
   (claim_C3_single_path String demoWorld initAgents "hi" { tools := none, mode := none }
     ((scoreStr_lt_three_iff "hi").mpr (by decide))).1⟩

/-- C7 counterexample: for `search for information` the word-length
contribution is 0.3 (three words), not the claimed 0.4, and the total score
is 2.8, not 2.9. -/
theorem claim_C7_counterexample :
    wordContrib "search for information".data ≠ 2/5
      ∧ scoreStr "search for information" ≠ 29/10 := by
  constructor
  · unfold wordContrib
    have h : wordCount "search for information".data = 3 := by decide
    rw [h]
    norm_num
  · unfold scoreStr scoreL
    have h : score10 "search for information".data = 28 := by decide
    rw [h]
    norm_num

/-- C7 amended: the score of `search for information` is composed of one
search-verb match (1.0) plus the word-length contribution 0.3 (three words)
plus one tool-diversity category (1.5), totalling 2.8, which is below the
3.0 threshold, so `HybridAgent.execute` takes the single-agent path. -/
theorem claim_C7_amended :
    scoreStr "search for information"
        = searchContrib (lowerL "search for information".data) * 1
          + wordContrib "search for information".data
          + toolContrib (lowerL "search for information".data)
      ∧ searchContrib (lowerL "search for information".data) = 1
      ∧ wordContrib "search for information".data = 3/10
      ∧ toolContrib (lowerL "search for information".data) = 3/2
      ∧ scoreStr "search for information" = 14/5
      ∧ scoreStr "search for information" < 3
      ∧ ∀ (R : Type) (w : World R) (st : AgentState) (kw : ExecOpts),
          hybridExecute w st "search for information" kw =
            .ok { output := .singleOut (w.singleExec "search for information" kw)
                , state := st, calls := [] } := by
  have h1 : countM patSearch (lowerL "search for information".data) = 1 := by decide
  have h2 : wordCount "search for information".data = 3 := by decide
  have h3 : toolsNeeded (lowerL "search for information".data) = 1 := by decide
  have h4 : score10 "search for information".data = 28 := by decide
  refine ⟨?_, ?_, ?_, ?_, ?_, ?_, ?_⟩
  · unfold scoreStr scoreL searchContrib wordContrib toolContrib
    rw [h1, h2, h3, h4]
    norm_num
  · unfold searchContrib
    rw [h1]
    norm_num
  · unfold wordContrib
    rw [h2]
    norm_num
  · unfold toolContrib
    rw [h3]
    norm_num
  · unfold scoreStr scoreL
    rw [h4]
    norm_num
  · unfold scoreStr scoreL
    rw [h4]
    norm_num
  · intro R w st kw
    exact hybridExecute_single_of_lt w st "search for information" kw (by rw [h4]; norm_num)

/-- C1: evaluating the code where a specialized agent is needed or cannot be
constructed.  First conjunct: a fresh hybrid agent dispatching a
multi-complexity task raises a `TypeError` out of `execute` (the default
role configuration contains a `name` key, so `ToolAgent(name=..., **config)`
passes `name` twice) — the caller gets an exception, not an
AggregatedResult, and no pipeline stage is attempted.  Second conjunct: a
failing `ToolAgent` constructor likewise propagates out of
`add_specialized_agent`; no placeholder result exists anywhere in the
code. -/
theorem claim_C1_failure_propagates :
    hybridExecute demoWorld initAgents "optimize everything" opts0
        = .error "TypeError: got multiple values for keyword argument name"
      ∧ addSpecializedAgent failWorld initAgents "researcher" { name := none, tools := [] }
          = .error "bad configuration" :=
  ⟨by decide, by decide⟩

/-- C8: evaluating `add_specialized_agent` followed by resolution.  First
conjunct: with a configuration that carries a `name` key (the case the claim
describes as `name taken from cfg`), the call raises a `TypeError` — Python
receives the keyword `name` twice — and registers nothing.  Second and third
conjuncts: with a name-free configuration the call does construct the agent
immediately (default name `researcher-agent`) and overrides the previously
memoized instance. -/
theorem claim_C8_register_with_name_raises :
    addSpecializedAgent demoWorld popState "researcher"
        { name := some "custom-researcher", tools := [] }
        = .error "TypeError: got multiple values for keyword argument name"
      ∧ addSpecializedAgent demoWorld popState "researcher" { name := none, tools := ["search"] }
          = .ok (dictSet popState "researcher"
              (some { name := "researcher-agent", cfg := { name := none, tools := ["search"] } }))
      ∧ dictGet (dictSet popState "researcher"
            (some { name := "researcher-agent", cfg := { name := none, tools := ["search"] } }))
          "researcher"
          = some { name := "researcher-agent", cfg := { name := none, tools := ["search"] } } :=
  ⟨by decide, by decide, by decide⟩

set_option maxRecDepth 40000 in
/-- C2: the four-stage pipeline on a task scoring 6.5.  First conjunct: on a
fresh registry the dispatch raises a `TypeError` (default role construction
passes the keyword `name` twice), so no multi result is returned.  Remaining
conjuncts evaluate the pipeline on a fully populated registry: the mode is
`multi`; the four black-box role invocations happen exactly in the order
researcher, planner, executor, critic; all four stage entries are populated;
and the planner prompt is the literal research prompt prefix followed by the
rendering of the researcher stage output. -/
theorem claim_C2_pipeline :
    hybridExecute demoWorld initAgents "compare and contrast all results" opts0
        = .error "TypeError: got multiple values for keyword argument name"
      ∧ (hybridExecute demoWorld popState "compare and contrast all results" opts0).map
          (fun o => modeOf o.output) = .ok "multi"
      ∧ (hybridExecute demoWorld popState "compare and contrast all results" opts0).map
          (fun o => o.calls.map Prod.fst) = .ok stdRoles
      ∧ (hybridExecute demoWorld popState "compare and contrast all results" opts0).map
          (fun o => match o.output with
            | .multiOut _ _ r p e c => r.isSome && p.isSome && e.isSome && c.isSome
            | _ => false) = .ok true
      ∧ (hybridExecute demoWorld popState "compare and contrast all results" opts0).map
          (fun o => o.calls.lookup "planner")
          = .ok (some ("Plan execution strategy for: compare and contrast all results"
              ++ "\nBased on research: "
              ++ demoWorld.reprR (demoWorld.agentExec
                    { name := "researcher-agent", cfg := { name := none, tools := [] } }
                    (researcherPrompt "compare and contrast all results")))) :=
  ⟨by decide, by decide, by decide, by decide, by decide⟩

/-- When every role of the list is already bound, the creation loop of
`_execute_multi_agent` constructs nothing and leaves the registry as it
was. -/
theorem createMissing_of_all_present (w : World R) (kw : ExecOpts) (roles : List String)
    (st : AgentState) (h : ∀ role ∈ roles, (dictGet st role).isSome) :
    createMissing w kw roles st = .ok st := by
  induction roles with
  | nil => rfl
  | cons role rest ih =>
    have hr : (dictGet st role).isSome := h role (List.mem_cons_self role rest)
    unfold createMissing
    cases hg : dictGet st role with
    | none => rw [hg] at hr; simp at hr
    | some a =>
      simpa using ih (fun r hr2 => h r (List.mem_cons_of_mem _ hr2))

/-- When some role of the list is unbound, the creation loop of
`_execute_multi_agent` raises the duplicate-keyword `TypeError`. -/
theorem createMissing_of_missing (w : World R) (kw : ExecOpts) (roles : List String)
    (st : AgentState) (h : ∃ role ∈ roles, dictGet st role = none) :
    createMissing w kw roles st
      = .error "TypeError: got multiple values for keyword argument name" := by
  induction roles with
  | nil => obtain ⟨r, hr, _⟩ := h; simp at hr
  | cons role rest ih =>
    unfold createMissing
    cases hg : dictGet st role with
    | none =>
      simp [addSpecializedAgent]
    | some a =>
      obtain ⟨r, hr, hnone⟩ := h
      rcases List.mem_cons.mp hr with hEq | hMem
      · rw [hEq] at hnone; rw [hnone] at hg; cases hg
      · simpa using ih ⟨r, hMem, hnone⟩

/-- The error-or-multi shape of the full pipeline does not depend on the
keyword arguments: the only keyword read is the default tool list, which is
never reached because default construction raises first. -/
theorem runPipeline_branch_indep (w : World R) (st : AgentState) (task : String)
    (kw1 kw2 : ExecOpts) :
    branchOf (runPipeline w st task kw1) = branchOf (runPipeline w st task kw2) := by
  by_cases h : ∀ role ∈ stdRoles, (dictGet st role).isSome
  · unfold runPipeline
    rw [createMissing_of_all_present w kw1 stdRoles st h,
      createMissing_of_all_present w kw2 stdRoles st h]
  · have h2 : ∃ role ∈ stdRoles, dictGet st role = none := by
      push_neg at h
      obtain ⟨role, hmem, hns⟩ := h
      exact ⟨role, hmem, Option.not_isSome_iff_eq_none.mp hns⟩
    unfold runPipeline
    rw [createMissing_of_missing w kw1 stdRoles st h2,
      createMissing_of_missing w kw2 stdRoles st h2]

/-- The branch taken by `_execute_multi_agent` does not depend on the
keyword arguments. -/
theorem executeMultiAgent_branch_indep (w : World R) (st : AgentState) (task : String)
    (kw1 kw2 : ExecOpts) :
    branchOf (executeMultiAgent w st task kw1)
      = branchOf (executeMultiAgent w st task kw2) := by
  unfold executeMultiAgent
  by_cases hc : startsCalculate task
  · rw [if_pos hc, if_pos hc]
    rcases hda : w.decideAction task with ⟨an, ai⟩
    dsimp only
    by_cases h1 : (an == "calculator" && ai.expression.isSome) = true
    · rw [if_pos h1, if_pos h1]
      by_cases h2 : ((w.executeAction an ai).status == some "success"
          && (w.executeAction an ai).result.isSome) = true
      · rw [if_pos h2, if_pos h2]
      · rw [if_neg h2, if_neg h2]
        exact runPipeline_branch_indep w st task kw1 kw2
    · rw [if_neg h1, if_neg h1]
      exact runPipeline_branch_indep w st task kw1 kw2
  · rw [if_neg hc, if_neg hc]
    exact runPipeline_branch_indep w st task kw1 kw2

/-- C9: the claim says every `execute_task` call appends a `HistoryEntry`,
so after N calls the history has exactly N entries.  The code cannot do
this: `_async_execute` passes `mode=mode` to `loop.run_in_executor`, which
accepts only positional arguments, so every call raises a `TypeError`
before the agent runs and before the history append is reached.  Proved of
the embedding: every orchestrator call, on any world, state, task, mode
argument and clock reads, returns that `TypeError` with the state
unchanged, and any sequence of calls leaves `task_history` exactly as it
was — 0 new entries, not N. -/
theorem claim_C9_run_in_executor_raises (R : Type) (w : World R) (os : OrchState R)
    (task : String) (mode : Option String) (t1 t2 : ℚ) (calls : List CallSpec) :
    (executeTask w os task mode t1 t2).1
        = .error "TypeError: run_in_executor got an unexpected keyword argument mode"
      ∧ (executeTask w os task mode t1 t2).2 = os
      ∧ (runTasks w os calls).taskHistory = os.taskHistory := by
  refine ⟨rfl, rfl, ?_⟩
  induction calls generalizing os with
  | nil => rfl
  | cons c rest ih => exact ih _

/-- C10 counterexample: the claim says the mode argument of
`AgentOrchestrator.execute_task` is merely recorded in the history entry;
in fact it is never recorded anywhere, because the call raises a
`TypeError` inside `_async_execute` (the `mode=mode` keyword to
`run_in_executor`) before any dispatch or history append: a concrete call
with mode `multi` on a fresh orchestrator returns the error and leaves the
history empty. -/
theorem claim_C10_counterexample :
    (executeTask demoWorld initOrch "hi" (some "multi") 0 1).1
        = .error "TypeError: run_in_executor got an unexpected keyword argument mode"
      ∧ (executeTask demoWorld initOrch "hi" (some "multi") 0 1).2.taskHistory = [] :=
  ⟨rfl, rfl⟩

/-- C10 amended: the branch chosen by `HybridAgent.execute` — single,
multi, direct, or a propagated exception — is a function of the task text
and registry alone: two calls whose options differ (in the mode entry or
any other entry) take the same branch.  The mode argument of
`AgentOrchestrator.execute_task` never reaches that dispatch and is never
recorded in a history entry: every orchestrator call raises the
`run_in_executor` `TypeError` first, so its entire outcome — error value
and final state — is the same for any mode arguments and clock reads. -/
theorem claim_C10_amended (R : Type) (w : World R) (st : AgentState)
    (task : String) (kw1 kw2 : ExecOpts) (os : OrchState R) (m1 m2 : Option String)
    (t1 t2 t3 t4 : ℚ) :
    branchOf (hybridExecute w st task kw1) = branchOf (hybridExecute w st task kw2)
      ∧ executeTask w os task m1 t1 t2 = executeTask w os task m2 t3 t4 := by
  constructor
  · unfold hybridExecute
    by_cases h : score10 task.data < 30
    · rw [if_pos h, if_pos h]
      rfl
    · rw [if_neg h, if_neg h]
      exact executeMultiAgent_branch_indep w st task kw1 kw2
  · rfl

/-- C4: for a task whose lowered text begins with `calculate`, the
multi-agent entry point first tries the calculator fast path.  When action
resolution yields the calculator action with an expression and executing it
reports success with a result, it short-circuits: the direct dictionary with
the exact answer `The result of {expression} is {value}` comes back, the
registry is untouched and no pipeline stage is invoked.  Any failure of that
resolution (wrong action name, no expression, non-success status, missing
result) falls through to the full four-stage pipeline — no error surfaces
from the fast path itself. -/
theorem claim_C4_fast_path (R : Type) (w : World R) (st : AgentState) (task : String)
    (kw : ExecOpts) (h : startsCalculate task = true) :
    (fastFires w task = true →
      executeMultiAgent w st task kw =
        .ok { output := .directOut task (fastAnswer w task)
                (w.executeAction (w.decideAction task).1 (w.decideAction task).2)
            , state := st, calls := [] })
      ∧ (fastFires w task = false →
          executeMultiAgent w st task kw = runPipeline w st task kw) := by
  constructor
  · intro hf
    unfold executeMultiAgent
    rw [if_pos h]
    unfold fastFires at hf
    unfold fastAnswer
    rcases hda : w.decideAction task with ⟨an, ai⟩
    rw [hda] at hf
    dsimp only at hf ⊢
    simp only [Bool.and_eq_true] at hf
    obtain ⟨⟨hA, hB⟩, hC⟩ := hf
    rw [if_pos (by simp [hA, hB]), if_pos (by simp [hC.1, hC.2])]
  · intro hf
    unfold executeMultiAgent
    rw [if_pos h]
    unfold fastFires at hf
    rcases hda : w.decideAction task with ⟨an, ai⟩
    rw [hda] at hf
    dsimp only at hf ⊢
    by_cases h1 : (an == "calculator" && ai.expression.isSome) = true
    · rw [if_pos h1]
      rw [h1] at hf
      simp only [Bool.true_and] at hf
      rw [if_neg (by simp [hf])]
    · rw [if_neg h1]

/-- Witness for C4: on `calculate 2 + 2` (score 3.1, so the multi path is
reached) the fast path fires and yields the literal direct answer. -/
theorem claim_C4_witness :
    startsCalculate "calculate 2 + 2" = true
      ∧ fastFires demoWorld "calculate 2 + 2" = true
      ∧ executeMultiAgent demoWorld initAgents "calculate 2 + 2" opts0 =
          .ok { output := .directOut "calculate 2 + 2" "The result of 2 + 2 is 4"
                  { status := some "success", result := some "4" }
              , state := initAgents, calls := [] } := by
  refine ⟨by decide, by decide, ?_⟩
  have h := (claim_C4_fast_path String demoWorld initAgents "calculate 2 + 2" opts0
    (by decide)).1 (by decide)
  rw [h]
  decide

/-- Boolean prefix test as an append decomposition. -/
theorem pfxB_iff : ∀ (a b : List Char), a.isPrefixOf b = true ↔ ∃ t, b = a ++ t
  | [], b => by simp [List.isPrefixOf]
  | c :: a2, [] => by simp [List.isPrefixOf]
  | c :: a2, d :: b2 => by
    simp only [List.isPrefixOf, Bool.and_eq_true, beq_iff_eq]
    constructor
    · rintro ⟨hcd, hp⟩
      obtain ⟨t, ht⟩ := (pfxB_iff a2 b2).mp hp
      exact ⟨t, by rw [ht, hcd]; rfl⟩
    · rintro ⟨t, ht⟩
      rw [List.cons_append] at ht
      injection ht with h1 h2
      exact ⟨h1.symm, (pfxB_iff a2 b2).mpr ⟨t, h2⟩⟩

/-- A list is a prefix of itself followed by anything. -/
theorem pfxB_refl_append (a t : List Char) : a.isPrefixOf (a ++ t) = true :=
  (pfxB_iff a (a ++ t)).mpr ⟨t, rfl⟩

/-- A prefix is no longer than the whole. -/
theorem pfxB_length {a b : List Char} (h : a.isPrefixOf b = true) :
    a.length ≤ b.length := by
  obtain ⟨t, ht⟩ := (pfxB_iff a b).mp h
  rw [ht, List.length_append]
  omega

/-- Prefixes compose. -/
theorem pfxB_trans {a b c : List Char} (h1 : a.isPrefixOf b = true)
    (h2 : b.isPrefixOf c = true) : a.isPrefixOf c = true := by
  obtain ⟨t1, ht1⟩ := (pfxB_iff a b).mp h1
  obtain ⟨t2, ht2⟩ := (pfxB_iff b c).mp h2
  exact (pfxB_iff a c).mpr ⟨t1 ++ t2, by rw [ht2, ht1, List.append_assoc]⟩

/-- A prefix equals the take of its length. -/
theorem pfxB_eq_take {a b : List Char} (h : a.isPrefixOf b = true) :
    a = b.take a.length := by
  obtain ⟨t, ht⟩ := (pfxB_iff a b).mp h
  rw [ht, List.take_append_eq_append_take, List.take_length, Nat.sub_self,
    List.take_zero, List.append_nil]

/-- The take of a list is one of its prefixes. -/
theorem pfxB_take (b : List Char) (n : ℕ) : (b.take n).isPrefixOf b = true :=
  (pfxB_iff _ b).mpr ⟨b.drop n, (List.take_append_drop n b).symm⟩

/-- Two prefixes of the same list are comparable. -/
theorem pfxB_comparable {a b c : List Char} (h1 : a.isPrefixOf c = true)
    (h2 : b.isPrefixOf c = true) :
    a.isPrefixOf b = true ∨ b.isPrefixOf a = true := by
  rcases le_total a.length b.length with hl | hl
  · left
    rw [pfxB_eq_take h1, pfxB_eq_take h2]
    have ht : (c.take b.length).take a.length = c.take a.length := by
      rw [List.take_take, min_eq_left hl]
    refine (pfxB_iff _ _).mpr ⟨(c.take b.length).drop a.length, ?_⟩
    rw [← ht, List.take_append_drop]
  · right
    rw [pfxB_eq_take h1, pfxB_eq_take h2]
    have ht : (c.take a.length).take b.length = c.take b.length := by
      rw [List.take_take, min_eq_left hl]
    refine (pfxB_iff _ _).mpr ⟨(c.take a.length).drop b.length, ?_⟩
    rw [← ht, List.take_append_drop]

/-- Prefixes extend along appends on the right. -/
theorem pfxB_append_ext {a cs ys : List Char} (h : a.isPrefixOf cs = true) :
    a.isPrefixOf (cs ++ ys) = true := by
  obtain ⟨t, ht⟩ := (pfxB_iff a cs).mp h
  exact (pfxB_iff _ _).mpr ⟨t ++ ys, by rw [ht, List.append_assoc]⟩

/-- A short enough prefix of an extension is a prefix of the original. -/
theorem pfxB_restrict {a cs ys : List Char} (h : a.isPrefixOf (cs ++ ys) = true)
    (hl : a.length ≤ cs.length) : a.isPrefixOf cs = true := by
  have h2 : cs.take a.length = a := by
    obtain ⟨t, ht⟩ := (pfxB_iff _ _).mp h
    have h3 := congrArg (List.take a.length) ht
    rw [List.take_append_eq_append_take, Nat.sub_eq_zero_of_le hl, List.take_zero,
      List.append_nil, List.take_append_eq_append_take, List.take_length,
      Nat.sub_self, List.take_zero, List.append_nil] at h3
    exact h3
  refine (pfxB_iff _ _).mpr ⟨cs.drop a.length, ?_⟩
  conv_lhs => rw [← List.take_append_drop a.length cs]
  rw [h2]

/-- If neither direction of a prefix relation holds, appending cannot
create one. -/
theorem pfxB_neither_ext {a cs ys : List Char} (h1 : a.isPrefixOf cs = false)
    (h2 : cs.isPrefixOf a = false) : a.isPrefixOf (cs ++ ys) = false := by
  rcases Bool.eq_false_or_eq_true (a.isPrefixOf (cs ++ ys)) with h | h
  · exfalso
    rcases pfxB_comparable h (pfxB_refl_append cs ys) with hp | hp
    · rw [hp] at h1; cases h1
    · rw [hp] at h2; cases h2
  · exact h

/-- The whitespace run is never longer than the string. -/
theorem leadWs_le (cs : List Char) : leadWs cs ≤ cs.length := by
  induction cs with
  | nil => simp [leadWs]
  | cons c t ih =>
    unfold leadWs at ih ⊢
    rw [List.takeWhile_cons]
    by_cases hc : wsCharB c
    · rw [if_pos hc]
      simp only [List.length_cons]
      omega
    · rw [if_neg hc]
      simp

/-- Whitespace-run length across an append. -/
theorem leadWs_append (l1 l2 : List Char) :
    leadWs (l1 ++ l2)
      = if leadWs l1 < l1.length then leadWs l1 else l1.length + leadWs l2 := by
  induction l1 with
  | nil => simp [leadWs]
  | cons c t ih =>
    by_cases hc : wsCharB c
    · have h1 : leadWs (c :: t ++ l2) = 1 + leadWs (t ++ l2) := by
        simp [leadWs, List.takeWhile, hc]
        omega
      have h2 : leadWs (c :: t) = 1 + leadWs t := by
        simp [leadWs, List.takeWhile, hc]
        omega
      have hle : leadWs t ≤ t.length := leadWs_le t
      rw [h1, h2, ih]
      by_cases hlt : leadWs t < t.length
      · rw [if_pos hlt, if_pos (by simp; omega)]
      · rw [if_neg hlt, if_neg (by simp; omega)]
        simp
        omega
    · have h1 : leadWs (c :: t ++ l2) = 0 := by
        simp [leadWs, List.takeWhile, hc]
      have h2 : leadWs (c :: t) = 0 := by
        simp [leadWs, List.takeWhile, hc]
      rw [h1, h2, if_pos (by simp)]

/-- Splitting at the boundary space: when the appended space falls strictly
inside a literal `v`, the literal contains the space and continues with a
prefix of the appended phrase. -/
theorem boundary_split {v s p t : List Char}
    (he : s ++ ' ' :: p = v ++ t) (hl : s.length < v.length) :
    ∃ rest, v.drop s.length = ' ' :: rest ∧ ∃ t2, p = rest ++ t2 := by
  have hd := congrArg (List.drop s.length) he
  rw [List.drop_append_eq_append_drop, List.drop_append_eq_append_drop,
    List.drop_length, Nat.sub_self, List.drop_zero, List.nil_append,
    Nat.sub_eq_zero_of_le (le_of_lt hl), List.drop_zero] at hd
  cases hq : v.drop s.length with
  | nil =>
    have : v.length - s.length = 0 := by
      have := congrArg List.length hq
      simpa [List.length_drop] using this
    omega
  | cons c rest =>
    rw [hq, List.cons_append] at hd
    injection hd with hd1 hd2
    exact ⟨rest, by rw [← hd1], t, hd2⟩

/-- A space in a dropped suffix is a space in the list. -/
theorem mem_of_drop {v rest : List Char} {j : ℕ}
    (h : v.drop j = ' ' :: rest) : ' ' ∈ v := by
  have h1 : ' ' ∈ v.drop j := by rw [h]; exact List.mem_cons_self _ _
  exact List.drop_subset j v h1

/-- A Boolean that is not true is false. -/
theorem bool_eq_false {b : Bool} (h : ¬ b = true) : b = false := by
  rcases Bool.eq_false_or_eq_true b with h1 | h1
  · exact absurd h1 h
  · exact h1

/-- Inverting `goodTail` at a literal piece. -/
theorem goodTail_lit {s2 : List Char} {rest : Alt}
    (h : goodTail (.lit s2 :: rest) = true) : s2 ≠ [] ∧ goodTail rest = true := by
  unfold goodTail at h
  rcases Bool.and_eq_true_iff.mp h with ⟨h1, h2⟩
  refine ⟨?_, h2⟩
  intro he
  rw [he] at h1
  simp at h1

/-- Inverting `goodTail` at a whitespace piece. -/
theorem goodTail_ws {rest : Alt} (h : goodTail (.ws :: rest) = true) :
    ∃ u rest2, rest = .lit u :: rest2 ∧ u ≠ [] ∧ goodTail rest = true := by
  cases rest with
  | nil => simp [goodTail] at h
  | cons piece rest2 =>
    cases piece with
    | lit u =>
      unfold goodTail at h
      rcases Bool.and_eq_true_iff.mp h with ⟨h1, h2⟩
      refine ⟨u, rest2, rfl, ?_, h2⟩
      intro he
      rw [he] at h1
      simp at h1
    | ws => simp [goodTail] at h

/-- Decomposing a found match at a literal piece. -/
theorem matchAlt_lit_found {s2 : List Char} {rest : Alt} {x : List Char} {l : ℕ}
    (h : matchAlt (.lit s2 :: rest) x = .found l) :
    s2.isPrefixOf x = true
      ∧ ∃ l3, matchAlt rest (x.drop s2.length) = .found l3 ∧ l = s2.length + l3 := by
  unfold matchAlt at h
  by_cases hp : s2.isPrefixOf x = true
  · rw [if_pos hp] at h
    cases hm : matchAlt rest (x.drop s2.length) with
    | found l3 => rw [hm] at h; injection h with hl; exact ⟨hp, l3, rfl, hl.symm⟩
    | mismatch => rw [hm] at h; cases h
    | oob => rw [hm] at h; cases h
  · rw [if_neg hp] at h
    by_cases hq : x.isPrefixOf s2 = true
    · rw [if_pos hq] at h; cases h
    · rw [if_neg hq] at h; cases h

/-- Decomposing a found match at a whitespace piece. -/
theorem matchAlt_ws_found {rest : Alt} {x : List Char} {l : ℕ}
    (h : matchAlt (.ws :: rest) x = .found l) :
    leadWs x ≠ 0
      ∧ ∃ l3, matchAlt rest (x.drop (leadWs x)) = .found l3 ∧ l = leadWs x + l3 := by
  unfold matchAlt at h
  by_cases hn : leadWs x = 0
  · rw [if_pos hn] at h
    by_cases he : x.isEmpty = true
    · rw [if_pos he] at h; cases h
    · rw [if_neg he] at h; cases h
  · rw [if_neg hn] at h
    cases hm : matchAlt rest (x.drop (leadWs x)) with
    | found l3 => rw [hm] at h; injection h with hl; exact ⟨hn, l3, rfl, hl.symm⟩
    | mismatch => rw [hm] at h; cases h
    | oob => rw [hm] at h; cases h

/-- Building a found match at a literal piece. -/
theorem matchAlt_lit_mk {s2 x : List Char} {rest : Alt} {l3 : ℕ}
    (hp : s2.isPrefixOf x = true)
    (hm : matchAlt rest (x.drop s2.length) = .found l3) :
    matchAlt (.lit s2 :: rest) x = .found (s2.length + l3) := by
  unfold matchAlt
  rw [if_pos hp, hm]

/-- Building a found match at a whitespace piece. -/
theorem matchAlt_ws_mk {x : List Char} {rest : Alt} {l3 : ℕ}
    (hn : ¬ leadWs x = 0)
    (hm : matchAlt rest (x.drop (leadWs x)) = .found l3) :
    matchAlt (.ws :: rest) x = .found (leadWs x + l3) := by
  unfold matchAlt
  rw [if_neg hn, hm]

/-- A nonempty literal cannot match the empty string: it runs out of
input. -/
theorem matchAlt_lit_nil {u : List Char} {rest2 : Alt} (hu : u ≠ []) :
    matchAlt (.lit u :: rest2) [] = .oob := by
  unfold matchAlt
  cases u with
  | nil => exact absurd rfl hu
  | cons c cu => rw [if_neg (by simp [List.isPrefixOf]), if_pos (by simp [List.isPrefixOf])]

/-- A found match consumes at most the scanned string. -/
theorem matchAlt_found_le {a : Alt} : ∀ {x : List Char} {l : ℕ},
    matchAlt a x = .found l → l ≤ x.length := by
  induction a with
  | nil =>
    intro x l h
    unfold matchAlt at h
    injection h with hl
    omega
  | cons piece rest ih =>
    intro x l h
    cases piece with
    | lit s2 =>
      obtain ⟨hp, l3, hm, hl⟩ := matchAlt_lit_found h
      have h1 := pfxB_length hp
      have h2 := ih hm
      rw [List.length_drop] at h2
      omega
    | ws =>
      obtain ⟨hn, l3, hm, hl⟩ := matchAlt_ws_found h
      have h1 := leadWs_le x
      have h2 := ih hm
      rw [List.length_drop] at h2
      omega

/-- An out-of-input result at a literal head means the head is consistent
with the text: one is a prefix of the other. -/
theorem matchAlt_oob_head {s2 : List Char} {rest : Alt} {x : List Char}
    (h : matchAlt (.lit s2 :: rest) x = .oob) :
    s2.isPrefixOf x = true ∨ x.isPrefixOf s2 = true := by
  by_cases hp : s2.isPrefixOf x = true
  · exact Or.inl hp
  · right
    unfold matchAlt at h
    rw [if_neg hp] at h
    by_cases hq : x.isPrefixOf s2 = true
    · exact hq
    · rw [if_neg hq] at h; cases h

/-- A found match at a literal head pins the head as a prefix of the
text. -/
theorem matchAlt_found_head {s2 : List Char} {rest : Alt} {x : List Char} {l : ℕ}
    (h : matchAlt (.lit s2 :: rest) x = .found l) : s2.isPrefixOf x = true :=
  (matchAlt_lit_found h).1

/-- A found match survives appending text on the right unchanged. -/
theorem matchAlt_found_ext {a : Alt} : ∀ {x ys : List Char} {l : ℕ},
    goodTail a = true → matchAlt a x = .found l → matchAlt a (x ++ ys) = .found l := by
  induction a with
  | nil =>
    intro x ys l _ h
    unfold matchAlt at h ⊢
    exact h
  | cons piece rest ih =>
    intro x ys l hg h
    cases piece with
    | lit s2 =>
      obtain ⟨hne, hgt⟩ := goodTail_lit hg
      obtain ⟨hp, l3, hm, hl⟩ := matchAlt_lit_found h
      have hx : (x ++ ys).drop s2.length = x.drop s2.length ++ ys := by
        rw [List.drop_append_eq_append_drop, Nat.sub_eq_zero_of_le (pfxB_length hp),
          List.drop_zero]
      have hm2 : matchAlt rest ((x ++ ys).drop s2.length) = .found l3 := by
        rw [hx]
        exact ih hgt hm
      rw [hl]
      exact matchAlt_lit_mk (pfxB_append_ext hp) hm2
    | ws =>
      obtain ⟨u, rest2, hrest, hune, hgt⟩ := goodTail_ws hg
      obtain ⟨hn, l3, hm, hl⟩ := matchAlt_ws_found h
      have hlt : leadWs x < x.length := by
        rcases lt_or_eq_of_le (leadWs_le x) with h1 | h1
        · exact h1
        · exfalso
          have hdx : x.drop (leadWs x) = [] := by rw [h1, List.drop_length]
          rw [hdx, hrest, matchAlt_lit_nil hune] at hm
          cases hm
      have hlead : leadWs (x ++ ys) = leadWs x := by
        rw [leadWs_append, if_pos hlt]
      have hdrop : (x ++ ys).drop (leadWs (x ++ ys)) = x.drop (leadWs x) ++ ys := by
        rw [hlead, List.drop_append_eq_append_drop,
          Nat.sub_eq_zero_of_le (le_of_lt hlt), List.drop_zero]
      have hm2 : matchAlt rest ((x ++ ys).drop (leadWs (x ++ ys))) = .found l3 := by
        rw [hdrop]
        exact ih hgt hm
      have h3 := matchAlt_ws_mk (by rw [hlead]; exact hn) hm2
      rw [hlead] at h3
      rw [hl]
      exact h3

/-- A definite mismatch survives appending text on the right. -/
theorem matchAlt_mismatch_ext {a : Alt} : ∀ {x ys : List Char},
    goodTail a = true → matchAlt a x = .mismatch →
    matchAlt a (x ++ ys) = .mismatch := by
  induction a with
  | nil =>
    intro x ys _ h
    unfold matchAlt at h
    cases h
  | cons piece rest ih =>
    intro x ys hg h
    cases piece with
    | lit s2 =>
      obtain ⟨hne, hgt⟩ := goodTail_lit hg
      unfold matchAlt at h ⊢
      by_cases hp : s2.isPrefixOf x = true
      · rw [if_pos hp] at h
        rw [if_pos (pfxB_append_ext hp)]
        have hx : (x ++ ys).drop s2.length = x.drop s2.length ++ ys := by
          rw [List.drop_append_eq_append_drop, Nat.sub_eq_zero_of_le (pfxB_length hp),
            List.drop_zero]
        rw [hx]
        cases hm : matchAlt rest (x.drop s2.length) with
        | found l3 => rw [hm] at h; cases h
        | mismatch => rw [ih hgt hm]
        | oob => rw [hm] at h; cases h
      · rw [if_neg hp] at h
        by_cases hq : x.isPrefixOf s2 = true
        · rw [if_pos hq] at h; cases h
        · rw [if_neg hq] at h
          have hfa : s2.isPrefixOf (x ++ ys) = false :=
            pfxB_neither_ext (bool_eq_false hp) (bool_eq_false hq)
          have hfb : (x ++ ys).isPrefixOf s2 = false := by
            rcases Bool.eq_false_or_eq_true ((x ++ ys).isPrefixOf s2) with h1 | h1
            · exact absurd (pfxB_trans (pfxB_refl_append x ys) h1) hq
            · exact h1
          rw [if_neg (by simp [hfa]), if_neg (by simp [hfb])]
    | ws =>
      obtain ⟨u, rest2, hrest, hune, hgt⟩ := goodTail_ws hg
      unfold matchAlt at h ⊢
      by_cases hn : leadWs x = 0
      · rw [if_pos hn] at h
        by_cases he : x.isEmpty = true
        · rw [if_pos he] at h; cases h
        · cases x with
          | nil => simp at he
          | cons c t =>
            have hc : wsCharB c = false := by
              by_cases hcc : wsCharB c = true
              · exfalso
                unfold leadWs at hn
                rw [List.takeWhile_cons, if_pos hcc] at hn
                simp at hn
              · exact bool_eq_false hcc
            have h1 : leadWs ((c :: t) ++ ys) = 0 := by
              unfold leadWs
              rw [List.cons_append, List.takeWhile_cons, if_neg (by simp [hc])]
              rfl
            rw [if_pos h1, if_neg (by simp)]
      · rw [if_neg hn] at h
        have hlt : leadWs x < x.length := by
          rcases lt_or_eq_of_le (leadWs_le x) with h1 | h1
          · exact h1
          · exfalso
            have hdx : x.drop (leadWs x) = [] := by rw [h1, List.drop_length]
            rw [hdx, hrest, matchAlt_lit_nil hune] at h
            cases h
        have hlead : leadWs (x ++ ys) = leadWs x := by
          rw [leadWs_append, if_pos hlt]
        have hdrop : (x ++ ys).drop (leadWs (x ++ ys)) = x.drop (leadWs x) ++ ys := by
          rw [hlead, List.drop_append_eq_append_drop,
            Nat.sub_eq_zero_of_le (le_of_lt hlt), List.drop_zero]
        rw [if_neg (by rw [hlead]; exact hn), hdrop]
        cases hm : matchAlt rest (x.drop (leadWs x)) with
        | found l3 => rw [hm] at h; cases h
        | mismatch => rw [ih hgt hm]
        | oob => rw [hm] at h; cases h

/-- A found match that fits inside the original string already matched
there. -/
theorem matchAlt_found_restrict {a : Alt} : ∀ {x ys : List Char} {l : ℕ},
    goodTail a = true → matchAlt a (x ++ ys) = .found l → l ≤ x.length →
    matchAlt a x = .found l := by
  induction a with
  | nil =>
    intro x ys l _ h _
    unfold matchAlt at h ⊢
    exact h
  | cons piece rest ih =>
    intro x ys l hg h hle
    cases piece with
    | lit s2 =>
      obtain ⟨hne, hgt⟩ := goodTail_lit hg
      obtain ⟨hp, l3, hm, hl⟩ := matchAlt_lit_found h
      have hs2 : s2.length ≤ x.length := by omega
      have hp2 : s2.isPrefixOf x = true := pfxB_restrict hp hs2
      have hx : (x ++ ys).drop s2.length = x.drop s2.length ++ ys := by
        rw [List.drop_append_eq_append_drop, Nat.sub_eq_zero_of_le hs2, List.drop_zero]
      rw [hx] at hm
      have hm2 := ih hgt hm (by rw [List.length_drop]; omega)
      rw [hl]
      exact matchAlt_lit_mk hp2 hm2
    | ws =>
      obtain ⟨u, rest2, hrest, hune, hgt⟩ := goodTail_ws hg
      obtain ⟨hn, l3, hm, hl⟩ := matchAlt_ws_found h
      have hl3 : 1 ≤ l3 := by
        rw [hrest] at hm
        obtain ⟨hp4, l4, _, hl4⟩ := matchAlt_lit_found hm
        cases u with
        | nil => exact absurd rfl hune
        | cons c cu => rw [hl4]; simp; omega
      have hnx : leadWs (x ++ ys) < x.length := by omega
      have hlead : leadWs (x ++ ys) = leadWs x := by
        rw [leadWs_append] at hnx ⊢
        by_cases hc : leadWs x < x.length
        · rw [if_pos hc]
        · rw [if_neg hc] at hnx
          omega
      have hdrop : (x ++ ys).drop (leadWs (x ++ ys)) = x.drop (leadWs x) ++ ys := by
        rw [hlead, List.drop_append_eq_append_drop,
          Nat.sub_eq_zero_of_le (by omega), List.drop_zero]
      rw [hdrop] at hm
      have hm2 := ih hgt hm (by rw [List.length_drop]; omega)
      have h3 := matchAlt_ws_mk (by rw [← hlead]; exact hn) hm2
      rw [hl, hlead]
      exact h3

/-- A successful scan step comes from some alternative of the pattern. -/
theorem firstMatch_some_exists {P : Pat} {cs : List Char} {l : ℕ}
    (h : firstMatch P cs = some l) : ∃ a ∈ P, matchAlt a cs = .found l := by
  induction P with
  | nil => cases h
  | cons a rest ih =>
    unfold firstMatch at h
    cases hm : matchAlt a cs with
    | found l2 =>
      rw [hm] at h
      injection h with hl
      exact ⟨a, List.mem_cons_self a rest, by rw [hm, hl]⟩
    | mismatch =>
      rw [hm] at h
      obtain ⟨b, hb, hmb⟩ := ih h
      exact ⟨b, List.mem_cons_of_mem a hb, hmb⟩
    | oob =>
      rw [hm] at h
      obtain ⟨b, hb, hmb⟩ := ih h
      exact ⟨b, List.mem_cons_of_mem a hb, hmb⟩

/-- A successful scan step fits inside the string. -/
theorem firstMatch_le {P : Pat} {cs : List Char} {l : ℕ}
    (h : firstMatch P cs = some l) : l ≤ cs.length := by
  obtain ⟨a, _, hm⟩ := firstMatch_some_exists h
  exact matchAlt_found_le hm

/-- A well-formed alternative starts with a literal. -/
theorem goodAlt_shape {b : Alt} (h : goodAlt b = true) :
    ∃ v b2, b = .lit v :: b2 ∧ goodTail b = true := by
  cases b with
  | nil => simp [goodAlt, headIsLit] at h
  | cons piece b2 =>
    cases piece with
    | lit v => exact ⟨v, b2, rfl, (Bool.and_eq_true_iff.mp h).2⟩
    | ws => simp [goodAlt, headIsLit] at h

/-- Membership form of `goodPat`. -/
theorem goodPat_mem {P : Pat} {a : Alt} (hg : goodPat P = true) (ha : a ∈ P) :
    goodAlt a = true := by
  unfold goodPat at hg
  exact List.all_eq_true.mp hg a ha

/-- Tail form of `goodPat`. -/
theorem goodPat_tail {P : Pat} {a : Alt} (hg : goodPat (a :: P) = true) :
    goodPat P = true := by
  unfold goodPat at hg ⊢
  rw [List.all_eq_true] at hg ⊢
  exact fun x hx => hg x (List.mem_cons_of_mem a hx)

/-- Head form of `noPfxB`. -/
theorem noPfxB_cons {a : Alt} {rest : Pat} (h : noPfxB (a :: rest) = true) :
    (∀ b ∈ rest, pairOkB a b = true) ∧ noPfxB rest = true := by
  unfold noPfxB at h
  rcases Bool.and_eq_true_iff.mp h with ⟨h1, h2⟩
  exact ⟨fun b hb => List.all_eq_true.mp h1 b hb, h2⟩

/-- Unfolding the pairwise head-literal condition. -/
theorem pairOkB_spec {a b : Alt} (h : pairOkB a b = true) :
    (headLit a).isPrefixOf (headLit b) = false
      ∧ (headLit b).isPrefixOf (headLit a) = false := by
  unfold pairOkB at h
  rcases Bool.and_eq_true_iff.mp h with ⟨h1, h2⟩
  exact ⟨by simpa using h1, by simpa using h2⟩

/-- A successful scan step survives appending text on the right: thanks to
the pairwise head-literal condition, an earlier alternative that ran out of
input cannot coexist with a later full match. -/
theorem firstMatch_ext {P : Pat} : ∀ {cs ys : List Char} {l : ℕ},
    goodPat P = true → noPfxB P = true → firstMatch P cs = some l →
    firstMatch P (cs ++ ys) = some l := by
  induction P with
  | nil => intro cs ys l _ _ h; cases h
  | cons a rest ih =>
    intro cs ys l hg hn h
    obtain ⟨hoks, hnrest⟩ := noPfxB_cons hn
    have hga : goodAlt a = true := goodPat_mem hg (List.mem_cons_self a rest)
    obtain ⟨v, b2, hshape, hgt⟩ := goodAlt_shape hga
    have hgrest : goodPat rest = true := goodPat_tail hg
    unfold firstMatch at h ⊢
    cases hm : matchAlt a cs with
    | found l2 =>
      rw [hm] at h
      rw [matchAlt_found_ext hgt hm]
      exact h
    | mismatch =>
      rw [hm] at h
      rw [matchAlt_mismatch_ext hgt hm]
      exact ih hgrest hnrest h
    | oob =>
      rw [hm] at h
      exfalso
      obtain ⟨b, hb, hmb⟩ := firstMatch_some_exists h
      have hgb := goodPat_mem hgrest hb
      obtain ⟨vb, bb2, hshapeb, _⟩ := goodAlt_shape hgb
      have hok := pairOkB_spec (hoks b hb)
      rw [hshape] at hm
      rw [hshapeb] at hmb
      have hvb : vb.isPrefixOf cs = true := matchAlt_found_head hmb
      have hok1 := hok.1
      have hok2 := hok.2
      rw [hshape, hshapeb] at hok1 hok2
      simp only [headLit] at hok1 hok2
      rcases matchAlt_oob_head hm with hva | hva
      · rcases pfxB_comparable hva hvb with hcmp | hcmp
        · rw [hcmp] at hok1; cases hok1
        · rw [hcmp] at hok2; cases hok2
      · have hvv := pfxB_trans hvb hva
        rw [hvv] at hok2
        cases hok2

/-- A successful scan step that fits inside the original already succeeds
there. -/
theorem firstMatch_restrict {P : Pat} : ∀ {cs ys : List Char} {l : ℕ},
    goodPat P = true → firstMatch P (cs ++ ys) = some l → l ≤ cs.length →
    firstMatch P cs = some l := by
  induction P with
  | nil => intro cs ys l _ h _; cases h
  | cons a rest ih =>
    intro cs ys l hg h hle
    have hga : goodAlt a = true := goodPat_mem hg (List.mem_cons_self a rest)
    obtain ⟨v, b2, hshape, hgt⟩ := goodAlt_shape hga
    have hgrest : goodPat rest = true := goodPat_tail hg
    unfold firstMatch at h ⊢
    cases hm : matchAlt a (cs ++ ys) with
    | found l2 =>
      rw [hm] at h
      injection h with hl
      rw [matchAlt_found_restrict hgt hm (by omega)]
      rw [hl]
    | mismatch =>
      rw [hm] at h
      cases hma : matchAlt a cs with
      | found l3 => rw [matchAlt_found_ext hgt hma] at hm; cases hm
      | mismatch => exact ih hgrest h hle
      | oob => exact ih hgrest h hle
    | oob =>
      rw [hm] at h
      cases hma : matchAlt a cs with
      | found l3 => rw [matchAlt_found_ext hgt hma] at hm; cases hm
      | mismatch => exact ih hgrest h hle
      | oob => exact ih hgrest h hle

/-- The fueled scan of the empty string is zero for any fuel. -/
theorem countAux_nil (P : Pat) : ∀ f, countAux P f [] = 0
  | 0 => rfl
  | _ + 1 => rfl

/-- The fueled scan is fuel-invariant once the fuel covers the string. -/
theorem countAux_fuel (P : Pat) : ∀ (f1 f2 : ℕ) (cs : List Char),
    cs.length ≤ f1 → cs.length ≤ f2 → countAux P f1 cs = countAux P f2 cs := by
  intro f1
  induction f1 with
  | zero =>
    intro f2 cs h1 h2
    have hnil : cs = [] := List.length_eq_zero.mp (by omega)
    rw [hnil, countAux_nil, countAux_nil]
  | succ f ih =>
    intro f2 cs h1 h2
    cases cs with
    | nil => rw [countAux_nil, countAux_nil]
    | cons c t =>
      cases f2 with
      | zero => simp at h2
      | succ f2p =>
        unfold countAux
        cases hm : firstMatch P (c :: t) with
        | some l =>
          dsimp only
          have hfl : (t.drop (l - 1)).length ≤ f := by
            rw [List.length_drop]
            simp at h1
            omega
          have hfl2 : (t.drop (l - 1)).length ≤ f2p := by
            rw [List.length_drop]
            simp at h2
            omega
          rw [ih f2p _ hfl hfl2]
        | none =>
          dsimp only
          have h1t : t.length ≤ f := by simp at h1; omega
          have h2t : t.length ≤ f2p := by simp at h2; omega
          rw [ih f2p t h1t h2t]

/-- The non-overlapping scan never loses matches when a space and a
span-safe phrase are appended: matches of the original region are stable
and the span-safety hypothesis rules out matches crossing the boundary. -/
theorem countAux_append_le (P : Pat) (p : List Char)
    (hg : goodPat P = true) (hn : noPfxB P = true)
    (hs : ∀ (s : List Char) (l : ℕ), firstMatch P (s ++ ' ' :: p) = some l → l ≤ s.length) :
    ∀ (f2 f1 : ℕ) (s : List Char), s.length + 1 + p.length ≤ f1 → s.length ≤ f2 →
      countAux P f2 s ≤ countAux P f1 (s ++ ' ' :: p) := by
  intro f2
  induction f2 with
  | zero =>
    intro f1 s h1 h2
    simp [countAux]
  | succ f2p ih =>
    intro f1 s h1 h2
    cases s with
    | nil => rw [countAux_nil]; omega
    | cons c t =>
      cases f1 with
      | zero => simp at h1
      | succ f1p =>
        have hassoc : (c :: t) ++ ' ' :: p = c :: (t ++ ' ' :: p) := rfl
        rw [hassoc]
        unfold countAux
        cases hm : firstMatch P (c :: t) with
        | some l =>
          have hext0 : firstMatch P ((c :: t) ++ ' ' :: p) = some l :=
            firstMatch_ext hg hn hm
          rw [hassoc] at hext0
          rw [hext0]
          dsimp only
          have hlle : l ≤ (c :: t).length := firstMatch_le hm
          have hlt : l - 1 ≤ t.length := by
            simp only [List.length_cons] at hlle
            omega
          have hsub : l - 1 - t.length = 0 := by omega
          have hdrop : (t ++ ' ' :: p).drop (l - 1) = t.drop (l - 1) ++ ' ' :: p := by
            rw [List.drop_append_eq_append_drop, hsub, List.drop_zero]
          rw [hdrop]
          have hrec := ih f1p (t.drop (l - 1))
            (by
              simp only [List.length_drop]
              simp only [List.length_cons] at h1
              omega)
            (by
              simp only [List.length_drop]
              simp only [List.length_cons] at h2
              omega)
          omega
        | none =>
          cases hme : firstMatch P (c :: (t ++ ' ' :: p)) with
          | some l =>
            exfalso
            have hle2 : l ≤ (c :: t).length := hs (c :: t) l (by rw [hassoc]; exact hme)
            have hres := @firstMatch_restrict P (c :: t) (' ' :: p) l hg
              (by rw [hassoc]; exact hme) hle2
            rw [hres] at hm
            cases hm
          | none =>
            dsimp only
            exact ih f1p t (by simp at h1 ⊢; omega) (by simp at h2; omega)

/-- Match counts never decrease when a space and a span-safe phrase are
appended. -/
theorem countM_append_le (P : Pat) (p t : List Char)
    (hg : goodPat P = true) (hn : noPfxB P = true)
    (hs : ∀ (s : List Char) (l : ℕ), firstMatch P (s ++ ' ' :: p) = some l → l ≤ s.length) :
    countM P t ≤ countM P (t ++ ' ' :: p) := by
  unfold countM
  have hlen : (t ++ ' ' :: p).length = t.length + 1 + p.length := by simp; omega
  rw [hlen]
  exact countAux_append_le P p hg hn hs t.length (t.length + 1 + p.length) t le_rfl le_rfl

/-- Head and tail of an equality of cons cells. -/
theorem cons_eq_space {c : Char} {t1 rest : List Char}
    (h : c :: t1 = ' ' :: rest) : c = ' ' ∧ t1 = rest := by
  injection h with h1 h2
  exact ⟨h1, h2⟩

/-- Unpacking `phraseOk`. -/
theorem phraseOk_spec {p : List Char} (h : phraseOk p = true) :
    (∃ c cs2, p = c :: cs2 ∧ wsCharB c = false)
      ∧ "up".data.isPrefixOf p = false
      ∧ "text".data.isPrefixOf p = false
      ∧ "code".data.isPrefixOf p = false := by
  unfold phraseOk at h
  rcases Bool.and_eq_true_iff.mp h with ⟨h1, h4⟩
  rcases Bool.and_eq_true_iff.mp h1 with ⟨h1, h3⟩
  rcases Bool.and_eq_true_iff.mp h1 with ⟨h1, h2⟩
  refine ⟨?_, by simpa using h2, by simpa using h3, by simpa using h4⟩
  cases p with
  | nil => simp at h1
  | cons c cs2 => exact ⟨c, cs2, rfl, by simpa using h1⟩

/-- A one-literal alternative cannot match across the appended boundary
space when the literal contains no space. -/
theorem span_single_nospace {w s p : List Char} {l : ℕ}
    (hw : ¬ ' ' ∈ w)
    (hm : matchAlt [.lit w] (s ++ ' ' :: p) = .found l) : l ≤ s.length := by
  by_contra hc
  push_neg at hc
  obtain ⟨hp, l3, hm3, hl⟩ := matchAlt_lit_found hm
  have hl3 : l3 = 0 := by
    unfold matchAlt at hm3
    injection hm3 with h0
    omega
  obtain ⟨t, ht⟩ := (pfxB_iff _ _).mp hp
  have hlen : s.length < w.length := by omega
  obtain ⟨rest, hdrop, _, _⟩ := boundary_split ht hlen
  exact hw (mem_of_drop hdrop)

/-- The only space inside `look up` sits before its final `up`. -/
theorem span_lookup_drop {j : ℕ} {rest : List Char}
    (h : "look up".data.drop j = ' ' :: rest) : rest = "up".data := by
  have hhead : ("look up".data.drop j).head? = some ' ' := by rw [h]; rfl
  have hlen7 : ("look up".data).length = 7 := by decide
  have hj : j = 4 := by
    by_contra hne
    have hj7 : j < 7 := by
      by_contra hc2
      push_neg at hc2
      have hnil : "look up".data.drop j = [] := List.drop_eq_nil_of_le (by omega)
      rw [hnil] at hhead
      cases hhead
    interval_cases j
    · exact absurd hhead (by decide)
    · exact absurd hhead (by decide)
    · exact absurd hhead (by decide)
    · exact absurd hhead (by decide)
    · exact absurd rfl hne
    · exact absurd hhead (by decide)
    · exact absurd hhead (by decide)
  subst hj
  have h2 : (' ' :: "up".data : List Char) = ' ' :: rest := h
  exact ((cons_eq_space h2).2).symm

/-- The `look up` alternative cannot match across the appended boundary
space when the phrase does not begin with `up`. -/
theorem span_lookup {s p : List Char} {l : ℕ}
    (hup : "up".data.isPrefixOf p = false)
    (hm : matchAlt [.lit "look up".data] (s ++ ' ' :: p) = .found l) : l ≤ s.length := by
  by_contra hc
  push_neg at hc
  obtain ⟨hp, l3, hm3, hl⟩ := matchAlt_lit_found hm
  have hl3 : l3 = 0 := by
    unfold matchAlt at hm3
    injection hm3 with h0
    omega
  obtain ⟨t, ht⟩ := (pfxB_iff _ _).mp hp
  have hlen7 : ("look up".data).length = 7 := by decide
  have hlen : s.length < ("look up".data).length := by omega
  obtain ⟨rest, hdrop, t2, hp2⟩ := boundary_split ht hlen
  have hrest := span_lookup_drop hdrop
  subst hrest
  rw [hp2, pfxB_refl_append] at hup
  cases hup

/-- A literal-whitespace-literal alternative cannot match across the
appended boundary space when neither literal contains a space and the
phrase does not begin with the trailing literal. -/
theorem span_wsLit {w u s p : List Char} {l : ℕ}
    (hw : ¬ ' ' ∈ w) (hu : ¬ ' ' ∈ u)
    (hph : phraseOk p = true)
    (hupfx : u.isPrefixOf p = false)
    (hm : matchAlt [.lit w, .ws, .lit u] (s ++ ' ' :: p) = .found l) : l ≤ s.length := by
  by_contra hc
  push_neg at hc
  obtain ⟨⟨c0, cs0, hp0, hc0⟩, _, _, _⟩ := phraseOk_spec hph
  obtain ⟨hp, l3, hm3, hl⟩ := matchAlt_lit_found hm
  obtain ⟨hn, l4, hm4, hl4⟩ := matchAlt_ws_found hm3
  obtain ⟨hpu, l5, hm5, hl5⟩ := matchAlt_lit_found hm4
  have hl5z : l5 = 0 := by
    unfold matchAlt at hm5
    injection hm5 with h0
    omega
  by_cases hcase : s.length < w.length
  · obtain ⟨t, ht⟩ := (pfxB_iff _ _).mp hp
    obtain ⟨rest, hdrop, _, _⟩ := boundary_split ht hcase
    exact hw (mem_of_drop hdrop)
  · push_neg at hcase
    have hdw : (s ++ ' ' :: p).drop w.length = s.drop w.length ++ ' ' :: p := by
      rw [List.drop_append_eq_append_drop, Nat.sub_eq_zero_of_le hcase, List.drop_zero]
    rw [hdw] at hn hm4 hl4 hpu
    have hs2len : (s.drop w.length).length = s.length - w.length := by
      rw [List.length_drop]
    rcases lt_or_ge (leadWs (s.drop w.length)) (s.drop w.length).length with hlt | hge
    · have hn2 : leadWs (s.drop w.length ++ ' ' :: p) = leadWs (s.drop w.length) := by
        rw [leadWs_append, if_pos hlt]
      rw [hn2] at hm4 hl4
      have hdrop2 : (s.drop w.length ++ ' ' :: p).drop (leadWs (s.drop w.length))
          = (s.drop w.length).drop (leadWs (s.drop w.length)) ++ ' ' :: p := by
        rw [List.drop_append_eq_append_drop, Nat.sub_eq_zero_of_le (le_of_lt hlt),
          List.drop_zero]
      rw [hdrop2] at hm4
      have hpu2 := matchAlt_found_head hm4
      obtain ⟨t3, ht3⟩ := (pfxB_iff _ _).mp hpu2
      have hulen : ((s.drop w.length).drop (leadWs (s.drop w.length))).length < u.length := by
        rw [List.length_drop, hs2len]
        omega
      obtain ⟨rest, hdropu, _, _⟩ := boundary_split ht3 hulen
      exact hu (mem_of_drop hdropu)
    · have hall : leadWs (s.drop w.length) = (s.drop w.length).length :=
        le_antisymm (leadWs_le _) hge
      have hone : leadWs (' ' :: p) = 1 := by
        unfold leadWs
        rw [List.takeWhile_cons, if_pos (by decide), hp0, List.takeWhile_cons,
          if_neg (by simp [hc0])]
        rfl
      have hn3 : leadWs (s.drop w.length ++ ' ' :: p) = (s.drop w.length).length + 1 := by
        rw [leadWs_append, if_neg (by omega), hone]
      have hdrop3 : (s.drop w.length ++ ' ' :: p).drop (leadWs (s.drop w.length ++ ' ' :: p))
          = p := by
        rw [hn3, List.drop_append_eq_append_drop,
          List.drop_eq_nil_of_le (by omega : (s.drop w.length).length ≤ (s.drop w.length).length + 1)]
        have hsub2 : (s.drop w.length).length + 1 - (s.drop w.length).length = 1 := by omega
        rw [hsub2]
        rfl
      rw [hdrop3] at hm4
      have hpu2 : u.isPrefixOf p = true := matchAlt_found_head hm4
      rw [hpu2] at hupfx
      cases hupfx

/-- Span safety of the arithmetic-verb pattern. -/
theorem spanFree_patCalc {p : List Char} (hph : phraseOk p = true) :
    ∀ (s : List Char) (l : ℕ),
      firstMatch patCalc (s ++ ' ' :: p) = some l → l ≤ s.length := by
  intro s l h
  obtain ⟨a, ha, hm⟩ := firstMatch_some_exists h
  simp only [patCalc, L, List.mem_cons, List.mem_singleton, List.mem_nil_iff, or_false] at ha
  rcases ha with rfl | rfl | rfl
  · exact span_single_nospace (by decide) hm
  · exact span_single_nospace (by decide) hm
  · exact span_single_nospace (by decide) hm

/-- Span safety of the search-verb pattern. -/
theorem spanFree_patSearch {p : List Char} (hph : phraseOk p = true) :
    ∀ (s : List Char) (l : ℕ),
      firstMatch patSearch (s ++ ' ' :: p) = some l → l ≤ s.length := by
  intro s l h
  obtain ⟨-, hup, -, -⟩ := phraseOk_spec hph
  obtain ⟨a, ha, hm⟩ := firstMatch_some_exists h
  simp only [patSearch, L, List.mem_cons, List.mem_singleton, List.mem_nil_iff, or_false] at ha
  rcases ha with rfl | rfl | rfl
  · exact span_single_nospace (by decide) hm
  · exact span_single_nospace (by decide) hm
  · exact span_lookup hup hm

/-- Span safety of the text-processing pattern. -/
theorem spanFree_patText {p : List Char} (hph : phraseOk p = true) :
    ∀ (s : List Char) (l : ℕ),
      firstMatch patText (s ++ ' ' :: p) = some l → l ≤ s.length := by
  intro s l h
  obtain ⟨-, -, htext, -⟩ := phraseOk_spec hph
  obtain ⟨a, ha, hm⟩ := firstMatch_some_exists h
  simp only [patText, L, List.mem_cons, List.mem_singleton, List.mem_nil_iff, or_false] at ha
  rcases ha with rfl | rfl | rfl | rfl
  · exact span_wsLit (by decide) (by decide) hph htext hm
  · exact span_wsLit (by decide) (by decide) hph htext hm
  · exact span_wsLit (by decide) (by decide) hph htext hm
  · exact span_wsLit (by decide) (by decide) hph htext hm

/-- Span safety of the code-execution pattern. -/
theorem spanFree_patRun {p : List Char} (hph : phraseOk p = true) :
    ∀ (s : List Char) (l : ℕ),
      firstMatch patRun (s ++ ' ' :: p) = some l → l ≤ s.length := by
  intro s l h
  obtain ⟨-, -, -, hcode⟩ := phraseOk_spec hph
  obtain ⟨a, ha, hm⟩ := firstMatch_some_exists h
  simp only [patRun, L, List.mem_cons, List.mem_singleton, List.mem_nil_iff, or_false] at ha
  rcases ha with rfl | rfl
  · exact span_wsLit (by decide) (by decide) hph hcode hm
  · exact span_single_nospace (by decide) hm

/-- Span safety of the comparison-verb pattern. -/
theorem spanFree_patCompare {p : List Char} (hph : phraseOk p = true) :
    ∀ (s : List Char) (l : ℕ),
      firstMatch patCompare (s ++ ' ' :: p) = some l → l ≤ s.length := by
  intro s l h
  obtain ⟨a, ha, hm⟩ := firstMatch_some_exists h
  simp only [patCompare, L, List.mem_cons, List.mem_singleton, List.mem_nil_iff, or_false] at ha
  rcases ha with rfl | rfl | rfl
  · exact span_single_nospace (by decide) hm
  · exact span_single_nospace (by decide) hm
  · exact span_single_nospace (by decide) hm

/-- Span safety of the optimization-verb pattern. -/
theorem spanFree_patOptimize {p : List Char} (hph : phraseOk p = true) :
    ∀ (s : List Char) (l : ℕ),
      firstMatch patOptimize (s ++ ' ' :: p) = some l → l ≤ s.length := by
  intro s l h
  obtain ⟨a, ha, hm⟩ := firstMatch_some_exists h
  simp only [patOptimize, L, List.mem_cons, List.mem_singleton, List.mem_nil_iff, or_false] at ha
  rcases ha with rfl | rfl | rfl
  · exact span_single_nospace (by decide) hm
  · exact span_single_nospace (by decide) hm
  · exact span_single_nospace (by decide) hm

/-- Span safety of the sequencing-connective pattern. -/
theorem spanFree_patSeq {p : List Char} (hph : phraseOk p = true) :
    ∀ (s : List Char) (l : ℕ),
      firstMatch patSeq (s ++ ' ' :: p) = some l → l ≤ s.length := by
  intro s l h
  obtain ⟨a, ha, hm⟩ := firstMatch_some_exists h
  simp only [patSeq, L, List.mem_cons, List.mem_singleton, List.mem_nil_iff, or_false] at ha
  rcases ha with rfl | rfl | rfl | rfl
  · exact span_single_nospace (by decide) hm
  · exact span_single_nospace (by decide) hm
  · exact span_single_nospace (by decide) hm
  · exact span_single_nospace (by decide) hm

/-- Span safety of the conditional-connective pattern. -/
theorem spanFree_patCond {p : List Char} (hph : phraseOk p = true) :
    ∀ (s : List Char) (l : ℕ),
      firstMatch patCond (s ++ ' ' :: p) = some l → l ≤ s.length := by
  intro s l h
  obtain ⟨a, ha, hm⟩ := firstMatch_some_exists h
  simp only [patCond, L, List.mem_cons, List.mem_singleton, List.mem_nil_iff, or_false] at ha
  rcases ha with rfl | rfl | rfl | rfl
  · exact span_single_nospace (by decide) hm
  · exact span_single_nospace (by decide) hm
  · exact span_single_nospace (by decide) hm
  · exact span_single_nospace (by decide) hm

/-- Span safety of the universal-quantifier pattern. -/
theorem spanFree_patQuant {p : List Char} (hph : phraseOk p = true) :
    ∀ (s : List Char) (l : ℕ),
      firstMatch patQuant (s ++ ' ' :: p) = some l → l ≤ s.length := by
  intro s l h
  obtain ⟨a, ha, hm⟩ := firstMatch_some_exists h
  simp only [patQuant, L, List.mem_cons, List.mem_singleton, List.mem_nil_iff, or_false] at ha
  rcases ha with rfl | rfl | rfl
  · exact span_single_nospace (by decide) hm
  · exact span_single_nospace (by decide) hm
  · exact span_single_nospace (by decide) hm

/-- Span safety of the superlative pattern. -/
theorem spanFree_patSuper {p : List Char} (hph : phraseOk p = true) :
    ∀ (s : List Char) (l : ℕ),
      firstMatch patSuper (s ++ ' ' :: p) = some l → l ≤ s.length := by
  intro s l h
  obtain ⟨a, ha, hm⟩ := firstMatch_some_exists h
  simp only [patSuper, L, List.mem_cons, List.mem_singleton, List.mem_nil_iff, or_false] at ha
  rcases ha with rfl | rfl | rfl
  · exact span_single_nospace (by decide) hm
  · exact span_single_nospace (by decide) hm
  · exact span_single_nospace (by decide) hm

/-- Word counting across an inserted space boundary. -/
theorem wordsAux_append_space (x y : List Char) : ∀ b : Bool,
    wordsAux b (x ++ ' ' :: y) = wordsAux b x + wordsAux false y := by
  induction x with
  | nil =>
    intro b
    show wordsAux b (' ' :: y) = wordsAux b [] + wordsAux false y
    simp only [wordsAux]
    rw [if_pos (by decide)]
    omega
  | cons c t ih =>
    intro b
    show wordsAux b (c :: (t ++ ' ' :: y)) = wordsAux b (c :: t) + wordsAux false y
    simp only [wordsAux]
    by_cases hc : wsCharB c = true
    · rw [if_pos hc, if_pos hc]
      exact ih false
    · rw [if_neg hc, if_neg hc]
      cases b with
      | true =>
        rw [if_pos rfl, if_pos rfl]
        exact ih true
      | false =>
        rw [if_neg (by simp), if_neg (by simp)]
        rw [ih true]
        omega

/-- Appending a space and a phrase adds the phrase's words. -/
theorem wordCount_append_space (t p2 : List Char) :
    wordCount (t ++ ' ' :: p2) = wordCount t + wordCount p2 :=
  wordsAux_append_space t p2 false

/-- Special-character counting is additive. -/
theorem specialCount_append (x y : List Char) :
    specialCount (x ++ y) = specialCount x + specialCount y := by
  unfold specialCount
  rw [List.filter_append, List.length_append]

/-- A substring of the original is a substring of the extension. -/
theorem substrB_ext {n hay : List Char} (ys : List Char) (hs : substrB n hay = true) :
    substrB n (hay ++ ys) = true := by
  induction hay with
  | nil =>
    have hn : n = [] := by
      cases n with
      | nil => rfl
      | cons c t => simp [substrB] at hs
    subst hn
    cases ys with
    | nil => rfl
    | cons c t =>
      show substrB [] (c :: t) = true
      unfold substrB
      rw [Bool.or_eq_true]
      left
      simp [List.isPrefixOf]
  | cons c t ih =>
    unfold substrB at hs
    rw [List.cons_append]
    unfold substrB
    rw [Bool.or_eq_true] at hs ⊢
    rcases hs with hp | hr
    · left
      have hext := @pfxB_append_ext n (c :: t) ys hp
      rw [List.cons_append] at hext
      exact hext
    · right
      exact ih hr

/-- The tool-diversity count never drops when the task is extended. -/
theorem toolsNeeded_le_append (low ys : List Char) :
    toolsNeeded low ≤ toolsNeeded (low ++ ys) := by
  have h : ∀ kws : List String, anyKw kws low = true → anyKw kws (low ++ ys) = true := by
    intro kws hk
    unfold anyKw at hk ⊢
    rw [List.any_eq_true] at hk ⊢
    obtain ⟨k, hkmem, hks⟩ := hk
    exact ⟨k, hkmem, substrB_ext ys hks⟩
  have hterm : ∀ kws : List String,
      (if anyKw kws low then 1 else 0) ≤ (if anyKw kws (low ++ ys) then 1 else 0) := by
    intro kws
    by_cases hk : anyKw kws low = true
    · rw [if_pos hk, if_pos (h kws hk)]
    · rw [if_neg hk]
      exact Nat.zero_le _
  unfold toolsNeeded
  exact add_le_add (add_le_add (add_le_add (hterm _) (hterm _)) (hterm _)) (hterm _)

/-- Lowercasing distributes over the appended space and phrase. -/
theorem lowerL_append_space (t p2 : List Char) :
    lowerL (t ++ ' ' :: p2) = lowerL t ++ ' ' :: lowerL p2 := by
  unfold lowerL
  rw [List.map_append, List.map_cons]
  have hsp : Char.toLower ' ' = ' ' := by decide
  rw [hsp]

/-- The whole pattern-table contribution never drops when a space and a
span-safe phrase are appended. -/
theorem opsContrib10_le_append (low p2 : List Char) (hph : phraseOk p2 = true) :
    opsContrib10 low ≤ opsContrib10 (low ++ ' ' :: p2) := by
  unfold opsContrib10
  have h1 := countM_append_le patCalc p2 low (by decide) (by decide) (spanFree_patCalc hph)
  have h2 := countM_append_le patSearch p2 low (by decide) (by decide) (spanFree_patSearch hph)
  have h3 := countM_append_le patText p2 low (by decide) (by decide) (spanFree_patText hph)
  have h4 := countM_append_le patRun p2 low (by decide) (by decide) (spanFree_patRun hph)
  have h5 := countM_append_le patCompare p2 low (by decide) (by decide) (spanFree_patCompare hph)
  have h6 := countM_append_le patOptimize p2 low (by decide) (by decide) (spanFree_patOptimize hph)
  have h7 := countM_append_le patSeq p2 low (by decide) (by decide) (spanFree_patSeq hph)
  have h8 := countM_append_le patCond p2 low (by decide) (by decide) (spanFree_patCond hph)
  have h9 := countM_append_le patQuant p2 low (by decide) (by decide) (spanFree_patQuant hph)
  have h10 := countM_append_le patSuper p2 low (by decide) (by decide) (spanFree_patSuper hph)
  omega

/-- The raw tenths score never drops when a space and a span-safe phrase
are appended to the task. -/
theorem rawScore10_le_append (t p2 : List Char) (hph : phraseOk (lowerL p2) = true) :
    rawScore10 t ≤ rawScore10 (t ++ ' ' :: p2) := by
  unfold rawScore10
  rw [lowerL_append_space]
  have hops := opsContrib10_le_append (lowerL t) (lowerL p2) hph
  have hw : wordCount t ≤ wordCount (t ++ ' ' :: p2) := by
    rw [wordCount_append_space]
    omega
  have hsp : specialCount t ≤ specialCount (t ++ ' ' :: p2) := by
    rw [show t ++ ' ' :: p2 = t ++ (' ' :: p2) from rfl, specialCount_append]
    omega
  have htools := toolsNeeded_le_append (lowerL t) (' ' :: lowerL p2)
  omega

/-- The clamped tenths score never drops when a space and a span-safe
phrase are appended to the task. -/
theorem score10_le_append (t p2 : List Char) (hph : phraseOk (lowerL p2) = true) :
    score10 t ≤ score10 (t ++ ' ' :: p2) := by
  unfold score10
  exact min_le_min le_rfl (rawScore10_le_append t p2 hph)

/-- C6 counterexample: inserting the trigger phrase `and` into the middle
of the task `look up` (position 5, giving `look andup`) strictly decreases
the complexity score — it destroys both the search-verb match and the
search tool-diversity bonus (2.7 drops to 1.2) — so insertion of a trigger
phrase at an arbitrary position can decrease the score. -/
theorem claim_C6_counterexample :
    "and" ∈ triggerPhrases
      ∧ insertAt "look up".data 5 "and".data = "look andup".data
      ∧ scoreL (insertAt "look up".data 5 "and".data) < scoreL "look up".data := by
  refine ⟨by decide, by decide, ?_⟩
  rw [scoreL_lt_iff]
  decide

/-- C6 amended: appending a weighted trigger phrase to the task, separated
by a space, never decreases the complexity score (up to the 10.0 clamp). -/
theorem claim_C6_amended (p : String) (hp : p ∈ triggerPhrases) (t : String) :
    scoreStr t ≤ scoreStr (t ++ " " ++ p) := by
  have hph : phraseOk (lowerL p.data) = true := by
    have hall : triggerPhrases.all (fun q => phraseOk (lowerL q.data)) = true := by decide
    exact List.all_eq_true.mp hall p hp
  have hdata : (t ++ " " ++ p).data = t.data ++ ' ' :: p.data := by
    rw [String.data_append, String.data_append, List.append_assoc]
    rfl
  unfold scoreStr
  rw [hdata]
  exact scoreL_le_of_le (score10_le_append t.data p.data hph)

/-- Witness for the amended C6 at the phrase `and` and the task
`hello world`. -/
theorem claim_C6_witness :
    "and" ∈ triggerPhrases
      ∧ scoreStr "hello world" ≤ scoreStr ("hello world" ++ " " ++ "and") :=
  ⟨by decide, claim_C6_amended "and" (by decide) "hello world"⟩
